import Mathlib

/-!
# Verification of the QuadTree library (Marco4413/QuadTree)

A shallow embedding of `QuadTree.js` (the current version of the file: the one
with the `_elementsParents` owner index and iterative worklist traversals).

Modelling decisions:
* JS numbers are modelled as rationals (`ℚ`): the only arithmetic the library
  performs is comparison, addition, subtraction, multiplication and halving of
  coordinates, all of which are exact on doubles in the regimes the spec talks
  about and exact on `ℚ`.
* The class hierarchy `AbstractTreeElement` / `PointTreeElement` /
  `CircleTreeElement` / `RectTreeElement` is encoded as one structure with a
  geometry sum type; the polymorphic `IsInsideRect` dispatches on it.  The
  opaque `data` payload is not modelled (no operation reads it), and `id` is an
  arbitrary `Nat` (the library's `GenerateID` only guarantees distinct objects
  get distinct ids, which becomes a hypothesis where it matters).
* A `QuadTree` node graph with parent/root back-references becomes an inductive
  tree; a node's identity (the JS object reference stored in the owner index)
  becomes its path from the root (`List Nat` of quadrant indices), which is
  stable because nodes are never destroyed and never move.
* The mutable state reachable from a root (`tree` plus the root's
  `_elementsParents` owner index) becomes `TreeState`; mutation becomes state
  passing.  All public operations are modelled as called on the root node,
  which is how the library is consumed.
* `AddElement`'s worklist loop can recurse without bound through the
  split-constructor cycle (the child constructor re-inserts the parent's
  elements, which can overflow again), so insertion takes a fuel parameter and
  returns `none` when the fuel runs out.  The worklist (`pop` from the end,
  `push(...children)`) visits children in the order 3,2,1,0, depth first; the
  model reproduces that order exactly.
-/

/-- The geometry part of a tree element: `TreeElementType` together with the
per-class fields.  `unknown` is `AbstractTreeElement` itself, whose
`IsInsideRect` always returns `false`. -/
inductive ElemGeom where
  | unknown : ElemGeom
  | point (x y : ℚ) : ElemGeom
  | circle (x y r : ℚ) : ElemGeom
  | rect (x y w h : ℚ) : ElemGeom
deriving DecidableEq, Repr

/-- A tree element: an id (from `GenerateID`) plus its geometry.  Value
equality of `TreeElement` models JS reference equality, which is faithful as
long as distinct objects carry distinct ids. -/
structure TreeElement where
  id : Nat
  geom : ElemGeom
deriving DecidableEq, Repr

/-- `IsInsideRect(x, y, width, height)`, dispatching on the element class:
`PointTreeElement` uses the half-open point test, `CircleTreeElement` the
clamped-closest-point test, `RectTreeElement` the strict overlap test, and the
abstract base class returns `false`. -/
def TreeElement.IsInsideRect (e : TreeElement) (x y width height : ℚ) : Bool :=
  match e.geom with
  | .unknown => false
  | .point px py =>
      decide (px ≥ x) && decide (py ≥ y) &&
      decide (px < x + width) && decide (py < y + height)
  | .circle cx cy r =>
      let closestX : ℚ := if cx < x then x else if cx > x + width then x + width else cx
      let closestY : ℚ := if cy < y then y else if cy > y + height then y + height else cy
      let distX := cx - closestX
      let distY := cy - closestY
      decide (distX * distX + distY * distY ≤ r * r)
  | .rect ex ey ew eh =>
      decide (ex < x + width) && decide (ex + ew > x) &&
      decide (ey < y + height) && decide (ey + eh > y)

/-- A `QuadTree` node: bounds, `_maxElements`, `_maxDepth`, `_depth`,
`_elements`, and `_children` (either absent or exactly four, in the source's
order: top-left, top-right, bottom-left, bottom-right). -/
inductive QTree where
  | node (x y width height : ℚ) (maxElements : Nat) (maxDepth : Int) (depth : Nat)
      (elements : List TreeElement)
      (children : Option (QTree × QTree × QTree × QTree)) : QTree

namespace QTree

def x : QTree → ℚ | .node v _ _ _ _ _ _ _ _ => v
def y : QTree → ℚ | .node _ v _ _ _ _ _ _ _ => v
def width : QTree → ℚ | .node _ _ v _ _ _ _ _ _ => v
def height : QTree → ℚ | .node _ _ _ v _ _ _ _ _ => v
def maxElements : QTree → Nat | .node _ _ _ _ v _ _ _ _ => v
def maxDepth : QTree → Int | .node _ _ _ _ _ v _ _ _ => v
def depth : QTree → Nat | .node _ _ _ _ _ _ v _ _ => v
def elements : QTree → List TreeElement | .node _ _ _ _ _ _ _ v _ => v
def children : QTree → Option (QTree × QTree × QTree × QTree)
  | .node _ _ _ _ _ _ _ _ v => v

/-- Number of nodes of the tree (used as a termination measure for the query
worklists). -/
def size : QTree → Nat
  | .node _ _ _ _ _ _ _ _ none => 1
  | .node _ _ _ _ _ _ _ _ (some (c0, c1, c2, c3)) =>
      1 + (c0.size + c1.size + c2.size + c3.size)

/-- `IsPointInBounds(x, y)`: half-open point-in-rectangle test on the node's
own bounds. -/
def IsPointInBounds (t : QTree) (px py : ℚ) : Bool :=
  decide (px ≥ t.x) && decide (py ≥ t.y) &&
  decide (px < t.x + t.width) && decide (py < t.y + t.height)

/-- `IsRectInBounds(x, y, width, height)`: strict rectangle overlap test
against the node's own bounds. -/
def IsRectInBounds (t : QTree) (rx ry rw rh : ℚ) : Bool :=
  decide (t.x < rx + rw) && decide (t.x + t.width > rx) &&
  decide (t.y < ry + rh) && decide (t.y + t.height > ry)

/-- `element.IsInsideRect(tree._x, tree._y, tree._width, tree._height)`: the
overlap test `AddElement` performs at each visited node. -/
def overlapsNode (e : TreeElement) (t : QTree) : Bool :=
  e.IsInsideRect t.x t.y t.width t.height

end QTree

/-- A node identity: the path of quadrant indices from the root.  The JS owner
index stores node object references; since nodes are never destroyed, never
move, and children are assigned exactly once, paths are a faithful rendering
of those references. -/
abbrev NodePath := List Nat

/-- Follow a path down the tree. -/
def QTree.nodeAt : QTree → NodePath → Option QTree
  | t, [] => some t
  | t, i :: p =>
      match t.children with
      | none => none
      | some (c0, c1, c2, c3) =>
          match i with
          | 0 => c0.nodeAt p
          | 1 => c1.nodeAt p
          | 2 => c2.nodeAt p
          | 3 => c3.nodeAt p
          | _ => none

/-- The root's `_elementsParents` dictionary: element id to the ordered list of
nodes (as root paths) currently holding that element.  An association list;
`obj[id] = undefined` (entry clearing) is modelled by key removal, which is
observationally identical through `?? null`. -/
abbrev Owner := List (Nat × List NodePath)

namespace Owner

def lookupEntry : Owner → Nat → Option (List NodePath)
  | [], _ => none
  | kv :: rest, i => if kv.1 = i then some kv.2 else lookupEntry rest i

/-- The entry as `_GetParentsForElement` hands it to `AddElement` after
`create = true`: the stored list, or `[]` right after creation. -/
def getEntry (o : Owner) (id : Nat) : List NodePath :=
  (o.lookupEntry id).getD []

/-- `_GetParentsForElement(element, true)`: create the entry as `[]` if it is
absent. -/
def ensureEntry (o : Owner) (id : Nat) : Owner :=
  match o.lookupEntry id with
  | some _ => o
  | none => o ++ [(id, [])]

/-- `elParents.push(tree)`: append one node to an element's entry (the entry is
created by `ensureEntry` before any push can happen; pushing to a missing
entry defensively creates it). -/
def appendPath (o : Owner) (id : Nat) (p : NodePath) : Owner :=
  match o with
  | [] => [(id, [p])]
  | kv :: rest =>
      if kv.1 = id then (kv.1, kv.2 ++ [p]) :: rest
      else kv :: appendPath rest id p

/-- `_RemoveParentsForElement`: clear the entry. -/
def eraseEntry : Owner → Nat → Owner
  | [], _ => []
  | kv :: rest, i => if kv.1 = i then eraseEntry rest i else kv :: eraseEntry rest i

end Owner

/-- The whole mutable state reachable from a root node: the node tree plus the
root's owner index. -/
structure TreeState where
  tree : QTree
  elementsParents : Owner

namespace QuadTree

open QTree Owner

/-- The engine of insertion: run, in order, one full `AddElement(e)` worklist
traversal of the subtree rooted at path `p` for each `e` in `es`.  A single
traversal is the source's LIFO worklist (`pop` from the end,
`push(...children)` — so children are visited 3,2,1,0, depth first): at each
node the element overlaps, the node is appended to the element's owner entry
and the element to the node's `_elements`; a split node descends; a leaf whose
list now exceeds `_maxElements` (with `_maxDepth < 0 || _depth < _maxDepth`)
builds its four quadrant children in order, each child's constructor
re-inserting every element of the overflowing node through this same
`AddElement` loop.  The entry creation of `_GetParentsForElement(element,
true)` starts every per-element run.  One unit of fuel is consumed per
recursion step (the split/constructor cycle is unbounded when `_maxDepth < 0`
and elements coincide); `none` means the fuel ran out. -/
def addSeq (fuel : Nat) (es : List TreeElement) (p : NodePath) (t : QTree) (owner : Owner) :
    Option (QTree × Owner) :=
  match fuel, es, t with
  | _, [], _ => some (t, owner)
  | 0, _ :: _, _ => none
  | Nat.succ f, e :: rest, QTree.node tx ty tw th tme tmd td tels tch =>
    let owner0 := owner.ensureEntry e.id
    if e.IsInsideRect tx ty tw th then
      let owner1 := owner0.appendPath e.id p
      let tels1 := tels ++ [e]
      match tch with
      | some (c0, c1, c2, c3) => do
          let (c3', o3) ← addSeq f [e] (p ++ [3]) c3 owner1
          let (c2', o2) ← addSeq f [e] (p ++ [2]) c2 o3
          let (c1', o1) ← addSeq f [e] (p ++ [1]) c1 o2
          let (c0', o0) ← addSeq f [e] (p ++ [0]) c0 o1
          addSeq f rest p (QTree.node tx ty tw th tme tmd td tels1 (some (c0', c1', c2', c3'))) o0
      | none =>
          if (decide (tmd < 0) || decide ((td : Int) < tmd)) && decide (tels1.length > tme) then
            let hw := tw / 2
            let hh := th / 2
            do
              let (c0, o0) ← addSeq f tels1 (p ++ [0])
                  (QTree.node tx ty hw hh tme tmd (td + 1) [] none) owner1
              let (c1, o1) ← addSeq f tels1 (p ++ [1])
                  (QTree.node (tx + hw) ty hw hh tme tmd (td + 1) [] none) o0
              let (c2, o2) ← addSeq f tels1 (p ++ [2])
                  (QTree.node tx (ty + hh) hw hh tme tmd (td + 1) [] none) o1
              let (c3, o3) ← addSeq f tels1 (p ++ [3])
                  (QTree.node (tx + hw) (ty + hh) hw hh tme tmd (td + 1) [] none) o2
              addSeq f rest p (QTree.node tx ty tw th tme tmd td tels1 (some (c0, c1, c2, c3))) o3
          else
            addSeq f rest p (QTree.node tx ty tw th tme tmd td tels1 none) owner1
    else
      addSeq f rest p t owner0
termination_by structural fuel

end QuadTree

namespace QuadTree

open QTree Owner

/-- `AddElement(element)` called on the root: ensure the owner entry exists,
record its length, run the worklist, and return whether the entry grew. -/
def AddElement (fuel : Nat) (e : TreeElement) (s : TreeState) : Option (Bool × TreeState) :=
  let owner0 := s.elementsParents.ensureEntry e.id
  let initialParentCount := (owner0.getEntry e.id).length
  match addSeq fuel [e] [] s.tree owner0 with
  | none => none
  | some (t', owner') =>
      some (decide ((owner'.getEntry e.id).length > initialParentCount), ⟨t', owner'⟩)

/-- `HasElement(element)` called on the root: the owner entry exists and lists
the root (`parents.indexOf(this) >= 0`, `this` being the root, i.e. path `[]`). -/
def HasElement (e : TreeElement) (s : TreeState) : Bool :=
  match s.elementsParents.lookupEntry e.id with
  | none => false
  | some parents => decide ([] ∈ parents)

/-- `GetParentsForElement(element)`: `parents?.slice()` — a copy of the entry,
or `undefined` (here `none`) when there is no entry. -/
def GetParentsForElement (e : TreeElement) (s : TreeState) : Option (List NodePath) :=
  s.elementsParents.lookupEntry e.id

/-- `tree._elements.splice(tree._elements.indexOf(element), 1)`: remove the
first occurrence when present; `indexOf` returning `-1` makes `splice(-1, 1)`
drop the last entry instead. -/
def spliceRemove (e : TreeElement) (l : List TreeElement) : List TreeElement :=
  if e ∈ l then l.erase e else l.dropLast

/-- Apply `spliceRemove` to the `_elements` list of the node at path `p`
(entry paths always name existing nodes; an invalid path is a no-op). -/
def removeAtPath (e : TreeElement) : NodePath → QTree → QTree
  | [], QTree.node tx ty tw th tme tmd td tels tch =>
      QTree.node tx ty tw th tme tmd td (spliceRemove e tels) tch
  | i :: p, QTree.node tx ty tw th tme tmd td tels tch =>
      match tch with
      | none => QTree.node tx ty tw th tme tmd td tels none
      | some (c0, c1, c2, c3) =>
          match i with
          | 0 => QTree.node tx ty tw th tme tmd td tels (some (removeAtPath e p c0, c1, c2, c3))
          | 1 => QTree.node tx ty tw th tme tmd td tels (some (c0, removeAtPath e p c1, c2, c3))
          | 2 => QTree.node tx ty tw th tme tmd td tels (some (c0, c1, removeAtPath e p c2, c3))
          | 3 => QTree.node tx ty tw th tme tmd td tels (some (c0, c1, c2, removeAtPath e p c3))
          | _ => QTree.node tx ty tw th tme tmd td tels (some (c0, c1, c2, c3))

/-- `RemoveElement(element)` called on the root: no-op returning `false` unless
`HasElement`; otherwise pop every node recorded in the owner entry (last
first), splice the element out of each node's `_elements`, clear the entry,
and return `true`. -/
def RemoveElement (e : TreeElement) (s : TreeState) : Bool × TreeState :=
  if HasElement e s then
    let elParents := s.elementsParents.getEntry e.id
    let t' := elParents.reverse.foldl (fun t q => removeAtPath e q t) s.tree
    (true, ⟨t', s.elementsParents.eraseEntry e.id⟩)
  else
    (false, s)

/-- `UpdateElement(element)`: remove, and on success re-add. -/
def UpdateElement (fuel : Nat) (e : TreeElement) (s : TreeState) : Option (Bool × TreeState) :=
  match RemoveElement e s with
  | (true, s1) => AddElement fuel e s1
  | (false, s1) => some (false, s1)

/-- `GetElementsAt(x, y)`'s worklist loop over a pool of subtrees (front of the
list = top of the JS stack): skip a popped node when its `_elements` list is
empty or the point is out of bounds; descend into a split node (children pushed
so that child 3 is processed first); return the first surviving leaf's
elements. -/
def elementsAtPool (px py : ℚ) : List QTree → List TreeElement
  | [] => []
  | t :: rest =>
      if t.elements.isEmpty || !(t.IsPointInBounds px py) then
        elementsAtPool px py rest
      else
        match h : t.children with
        | some (c0, c1, c2, c3) => elementsAtPool px py (c3 :: c2 :: c1 :: c0 :: rest)
        | none => t.elements
termination_by pool => (pool.map QTree.size).sum
decreasing_by
  all_goals simp only [List.map_cons, List.sum_cons]
  all_goals cases t with
  | node a b c d f g i els ch =>
    first
    | (simp only [QTree.children] at h
       subst h
       simp only [QTree.size]
       omega)
    | (cases ch with
       | none => simp only [QTree.size]; omega
       | some cc =>
           obtain ⟨u0, u1, u2, u3⟩ := cc
           simp only [QTree.size]
           omega)

/-- `GetElementsAt(x, y)` called on any node. -/
def GetElementsAt (t : QTree) (px py : ℚ) : List TreeElement :=
  elementsAtPool px py [t]

/-- The collection phase of `GetElementsInRect`: like `elementsAtPool` but with
the rectangle overlap test, appending every surviving leaf's elements instead
of returning early. -/
def elementsInRectPool (rx ry rw rh : ℚ) : List QTree → List TreeElement
  | [] => []
  | t :: rest =>
      if t.elements.isEmpty || !(t.IsRectInBounds rx ry rw rh) then
        elementsInRectPool rx ry rw rh rest
      else
        match h : t.children with
        | some (c0, c1, c2, c3) => elementsInRectPool rx ry rw rh (c3 :: c2 :: c1 :: c0 :: rest)
        | none => t.elements ++ elementsInRectPool rx ry rw rh rest
termination_by pool => (pool.map QTree.size).sum
decreasing_by
  all_goals simp only [List.map_cons, List.sum_cons]
  all_goals cases t with
  | node a b c d f g i els ch =>
    first
    | (simp only [QTree.children] at h
       subst h
       simp only [QTree.size]
       omega)
    | (cases ch with
       | none => simp only [QTree.size]; omega
       | some cc =>
           obtain ⟨u0, u1, u2, u3⟩ := cc
           simp only [QTree.size]
           omega)

/-- The `seenElements` deduplication filter: keep an element iff its id has not
been seen yet. -/
def seenFilter : List TreeElement → List Nat → List TreeElement
  | [], _ => []
  | e :: es, seen =>
      if e.id ∈ seen then seenFilter es seen
      else e :: seenFilter es (e.id :: seen)

/-- `GetElementsInRect(x, y, width, height, filterDuplicates)`. -/
def GetElementsInRect (t : QTree) (rx ry rw rh : ℚ) (filterDuplicates : Bool) :
    List TreeElement :=
  let els := elementsInRectPool rx ry rw rh [t]
  if filterDuplicates then seenFilter els [] else els

/-- The root constructor `new QuadTree(x, y, width, height, maxElements,
maxDepth, initialElements)` (parent `null`): fresh bounds, a fresh empty owner
index, and one `AddElement` call per initial element. -/
def NewTree (fuel : Nat) (x y width height : ℚ) (maxElements : Nat) (maxDepth : Int)
    (initialElements : List TreeElement) : Option TreeState :=
  match addSeq fuel initialElements [] (QTree.node x y width height maxElements maxDepth 0 [] none) [] with
  | none => none
  | some (t, owner) => some ⟨t, owner⟩

/-- `CreateResized(x?, y?, width?, height?)`: a brand-new tree over the
possibly-overridden bounds, same capacity and depth limit, built from this
node's current `_elements` list. -/
def CreateResized (fuel : Nat) (s : TreeState)
    (ox oy ow oh : Option ℚ) : Option TreeState :=
  NewTree fuel (ox.getD s.tree.x) (oy.getD s.tree.y)
    (ow.getD s.tree.width) (oh.getD s.tree.height)
    s.tree.maxElements s.tree.maxDepth s.tree.elements

/-- A mutation of the public surface, for stating "after every sequence of
operations" claims. -/
inductive TreeOp where
  | add (e : TreeElement) : TreeOp
  | remove (e : TreeElement) : TreeOp
  | update (e : TreeElement) : TreeOp
deriving DecidableEq, Repr

def TreeOp.elem : TreeOp → TreeElement
  | .add e => e
  | .remove e => e
  | .update e => e

def runOp (fuel : Nat) (s : TreeState) : TreeOp → Option TreeState
  | .add e => (AddElement fuel e s).map (·.2)
  | .remove e => some (RemoveElement e s).2
  | .update e => (UpdateElement fuel e s).map (·.2)

def runOps (fuel : Nat) (s : TreeState) : List TreeOp → Option TreeState
  | [] => some s
  | op :: ops => match runOp fuel s op with
      | none => none
      | some s' => runOps fuel s' ops

/-- A freshly constructed root with no initial elements. -/
def freshState (x y width height : ℚ) (maxElements : Nat) (maxDepth : Int) : TreeState :=
  ⟨QTree.node x y width height maxElements maxDepth 0 [] none, []⟩

end QuadTree

namespace QuadTree

/-- All elements stored anywhere in the subtree (with multiplicity). -/
def treeElems : QTree → List TreeElement
  | QTree.node _ _ _ _ _ _ _ els none => els
  | QTree.node _ _ _ _ _ _ _ els (some (c0, c1, c2, c3)) =>
      els ++ (treeElems c0 ++ treeElems c1 ++ treeElems c2 ++ treeElems c3)

/-- Occurrences of elements with the given id in the `_elements` list of the
node at relative path `q` (0 when the path names no node). -/
def elemCntId : QTree → NodePath → Nat → Nat
  | t, [], i => t.elements.countP (fun v => decide (v.id = i))
  | QTree.node _ _ _ _ _ _ _ _ none, _ :: _, _ => 0
  | QTree.node _ _ _ _ _ _ _ _ (some (c0, c1, c2, c3)), j :: q, i =>
      match j with
      | 0 => elemCntId c0 q i
      | 1 => elemCntId c1 q i
      | 2 => elemCntId c2 q i
      | 3 => elemCntId c3 q i
      | _ => 0

/-- Occurrences of the element value in the `_elements` list of the node at
relative path `q` (0 when the path names no node). -/
def elemCntVal : QTree → NodePath → TreeElement → Nat
  | t, [], e => t.elements.count e
  | QTree.node _ _ _ _ _ _ _ _ none, _ :: _, _ => 0
  | QTree.node _ _ _ _ _ _ _ _ (some (c0, c1, c2, c3)), j :: q, e =>
      match j with
      | 0 => elemCntVal c0 q e
      | 1 => elemCntVal c1 q e
      | 2 => elemCntVal c2 q e
      | 3 => elemCntVal c3 q e
      | _ => 0

/-- The invariant of claim C5: the owner index and the per-node `_elements`
lists agree as multisets — for every element id and every node, the number of
occurrences of the id among the node's elements equals the number of
occurrences of the node in the owner entry for that id. -/
def Agree (s : TreeState) : Prop :=
  ∀ i q, (s.elementsParents.getEntry i).count q = elemCntId s.tree q i

/-- Every nonempty owner entry lists the root.  This holds for every state
reachable through root-level operations and is what makes `HasElement` on the
root equivalent to "has any membership". -/
def RootMem (s : TreeState) : Prop :=
  ∀ i, s.elementsParents.getEntry i ≠ [] → [] ∈ s.elementsParents.getEntry i

/-- Every element stored in the tree is one of the given values (used to tie
stored elements back to the elements mentioned by an operation sequence). -/
def StoredFrom (s : TreeState) (allowed : List TreeElement) : Prop :=
  ∀ v ∈ treeElems s.tree, v ∈ allowed

/-- The `GenerateID` guarantee, as a hypothesis on a collection of elements:
distinct element values never share an id. -/
def IdCoherent (l : List TreeElement) : Prop :=
  ∀ v ∈ l, ∀ w ∈ l, v.id = w.id → v = w

/-- What one `addSeq` run does, stated relative to its starting path `p`,
start state `(t, o)` and end state `(t', o')`:
1. owner entries only grow (by appending);
2. owner-entry occurrence counts of paths outside `p`'s subtree are unchanged;
3. inside `p`'s subtree, entry counts and stored-element counts grow in
   lockstep;
4. every stored element was already stored or is one of the inserted ones;
5. an entry can change only for an id of an inserted or stored element;
6. every inserted element that overlaps the subtree root gets `p` recorded;
7. the root node's bounds and configuration are unchanged;
8. the root node's `_elements` gains exactly the inserted elements that
   overlap its bounds, in order. -/
def AddSpec (es : List TreeElement) (p : NodePath) (t : QTree) (o : Owner)
    (t' : QTree) (o' : Owner) : Prop :=
  (∀ i, ∃ Δ, o'.getEntry i = o.getEntry i ++ Δ) ∧
  (∀ i q, (∀ r, q ≠ p ++ r) → (o'.getEntry i).count q = (o.getEntry i).count q) ∧
  (∀ i r, (o'.getEntry i).count (p ++ r) + elemCntId t r i =
      (o.getEntry i).count (p ++ r) + elemCntId t' r i) ∧
  (∀ v ∈ treeElems t', v ∈ treeElems t ∨ v ∈ es) ∧
  (∀ i, o'.getEntry i ≠ o.getEntry i →
      (∃ v ∈ es, v.id = i) ∨ ∃ v ∈ treeElems t, v.id = i) ∧
  (∀ v ∈ es, v.IsInsideRect t.x t.y t.width t.height = true → p ∈ o'.getEntry v.id) ∧
  (t'.x = t.x ∧ t'.y = t.y ∧ t'.width = t.width ∧ t'.height = t.height ∧
    t'.maxElements = t.maxElements ∧ t'.maxDepth = t.maxDepth ∧ t'.depth = t.depth) ∧
  (t'.elements = t.elements ++ es.filter (fun v => v.IsInsideRect t.x t.y t.width t.height))

end QuadTree

namespace Owner

theorem getEntry_cons (kv : Nat × List NodePath) (o : Owner) (i : Nat) :
    getEntry (kv :: o) i = if kv.1 = i then kv.2 else getEntry o i := by
  unfold getEntry
  simp only [lookupEntry]
  by_cases h : kv.1 = i <;> simp [h]

theorem lookupEntry_append_single_self (o : Owner) (i : Nat) (l : List NodePath)
    (h : o.lookupEntry i = none) : (o ++ [(i, l)]).lookupEntry i = some l := by
  induction o with
  | nil => simp [lookupEntry]
  | cons kv rest ih =>
      simp only [lookupEntry] at h
      by_cases hkv : kv.1 = i
      · simp [hkv] at h
      · simp only [List.cons_append, lookupEntry, if_neg hkv] at h ⊢
        exact ih h

theorem lookupEntry_append_single_other (o : Owner) (i j : Nat) (l : List NodePath)
    (hij : j ≠ i) : (o ++ [(i, l)]).lookupEntry j = o.lookupEntry j := by
  induction o with
  | nil => simp [lookupEntry, Ne.symm hij]
  | cons kv rest ih =>
      simp only [List.cons_append, lookupEntry]
      by_cases hkv : kv.1 = j <;> simp [hkv, ih]

theorem lookupEntry_ensureEntry_self (o : Owner) (i : Nat) :
    (o.ensureEntry i).lookupEntry i = some (o.getEntry i) := by
  unfold ensureEntry
  cases h : o.lookupEntry i with
  | some l => simp [h, getEntry]
  | none => rw [lookupEntry_append_single_self o i [] h, getEntry, h]; rfl

theorem getEntry_ensureEntry (o : Owner) (i j : Nat) :
    (o.ensureEntry i).getEntry j = o.getEntry j := by
  by_cases hij : j = i
  · subst hij
    rw [getEntry, lookupEntry_ensureEntry_self]
    rfl
  · unfold ensureEntry
    cases h : o.lookupEntry i with
    | some l => rfl
    | none => rw [getEntry, lookupEntry_append_single_other o i j [] hij, getEntry]

theorem getEntry_appendPath_self (o : Owner) (i : Nat) (p : NodePath) :
    (o.appendPath i p).getEntry i = o.getEntry i ++ [p] := by
  induction o with
  | nil => simp [appendPath, getEntry, lookupEntry]
  | cons kv rest ih =>
      obtain ⟨k, l⟩ := kv
      by_cases hkv : k = i
      · subst hkv
        simp [appendPath, getEntry, lookupEntry]
      · simp [appendPath, hkv, getEntry_cons, ih]

theorem getEntry_appendPath_other (o : Owner) (i j : Nat) (p : NodePath) (hij : j ≠ i) :
    (o.appendPath i p).getEntry j = o.getEntry j := by
  induction o with
  | nil => simp [appendPath, getEntry, lookupEntry, Ne.symm hij]
  | cons kv rest ih =>
      obtain ⟨k, l⟩ := kv
      by_cases hkv : k = i
      · subst hkv
        simp [appendPath, getEntry_cons, Ne.symm hij]
      · simp [appendPath, hkv, getEntry_cons, ih]

theorem lookupEntry_eraseEntry_self (o : Owner) (i : Nat) :
    (o.eraseEntry i).lookupEntry i = none := by
  induction o with
  | nil => simp [eraseEntry, lookupEntry]
  | cons kv rest ih =>
      obtain ⟨k, l⟩ := kv
      by_cases hkv : k = i
      · subst hkv
        simpa [eraseEntry] using ih
      · simp [eraseEntry, hkv, lookupEntry, ih]

theorem lookupEntry_eraseEntry_other (o : Owner) (i j : Nat) (hij : j ≠ i) :
    (o.eraseEntry i).lookupEntry j = o.lookupEntry j := by
  induction o with
  | nil => simp [eraseEntry, lookupEntry]
  | cons kv rest ih =>
      obtain ⟨k, l⟩ := kv
      by_cases hkv : k = i
      · subst hkv
        simp [eraseEntry, lookupEntry, Ne.symm hij, ih]
      · simp [eraseEntry, hkv, lookupEntry, ih]

end Owner


namespace QuadTree

open QTree Owner

theorem path_ne_extend (p : NodePath) (j : Nat) (r : NodePath) : p ≠ p ++ j :: r := by
  intro h
  have h2 := congrArg List.length h
  simp [List.length_append] at h2

theorem path_extend_inj {p : NodePath} {a b : Nat} {s u : NodePath}
    (h : p ++ a :: s = p ++ b :: u) : a = b ∧ s = u := by
  have h2 := List.append_cancel_left h
  exact ⟨(List.cons.injEq _ _ _ _ ▸ h2).1, (List.cons.injEq _ _ _ _ ▸ h2).2⟩

theorem count_append_single_self (l : List NodePath) (p : NodePath) :
    (l ++ [p]).count p = l.count p + 1 := by
  simp [List.count_append]

theorem count_append_single_other (l : List NodePath) (p q : NodePath) (h : q ≠ p) :
    (l ++ [p]).count q = l.count q := by
  simp [List.count_append, List.count_singleton', h]

theorem elemCntId_nil (t : QTree) (i : Nat) :
    elemCntId t [] i = t.elements.countP (fun v => decide (v.id = i)) := by
  cases t; simp [elemCntId]

theorem elemCntId_none (x y w h : ℚ) (me : Nat) (md : Int) (d : Nat)
    (els : List TreeElement) (j : Nat) (q : NodePath) (i : Nat) :
    elemCntId (QTree.node x y w h me md d els none) (j :: q) i = 0 := by
  simp [elemCntId]

theorem elemCntId_ge4 (t : QTree) (j : Nat) (q : NodePath) (i : Nat) (hj : 4 ≤ j) :
    elemCntId t (j :: q) i = 0 := by
  cases t with
  | node a b c d e f g els ch =>
      cases ch with
      | none => simp [elemCntId]
      | some cc =>
          obtain ⟨c0, c1, c2, c3⟩ := cc
          rcases j with _ | _ | _ | _ | j
          · omega
          · omega
          · omega
          · omega
          · simp [elemCntId]

theorem elemCntVal_nil (t : QTree) (e : TreeElement) :
    elemCntVal t [] e = t.elements.count e := by
  cases t; simp [elemCntVal]

theorem elemCntVal_none (x y w h : ℚ) (me : Nat) (md : Int) (d : Nat)
    (els : List TreeElement) (j : Nat) (q : NodePath) (e : TreeElement) :
    elemCntVal (QTree.node x y w h me md d els none) (j :: q) e = 0 := by
  simp [elemCntVal]

theorem elemCntVal_ge4 (t : QTree) (j : Nat) (q : NodePath) (e : TreeElement) (hj : 4 ≤ j) :
    elemCntVal t (j :: q) e = 0 := by
  cases t with
  | node a b c d e' f g els ch =>
      cases ch with
      | none => simp [elemCntVal]
      | some cc =>
          obtain ⟨c0, c1, c2, c3⟩ := cc
          rcases j with _ | _ | _ | _ | j
          · omega
          · omega
          · omega
          · omega
          · simp [elemCntVal]

theorem mem_elements_treeElems {v : TreeElement} {t : QTree} (h : v ∈ t.elements) :
    v ∈ treeElems t := by
  cases t with
  | node a b c d e f g els ch =>
      cases ch with
      | none => simpa [treeElems] using h
      | some cc =>
          obtain ⟨c0, c1, c2, c3⟩ := cc
          simp only [treeElems, List.mem_append]
          exact Or.inl (by simpa [QTree.elements] using h)

end QuadTree

namespace QuadTree

open QTree Owner

theorem addSpec_nil (p : NodePath) (t : QTree) (o : Owner) : AddSpec [] p t o t o := by
  refine ⟨fun i => ⟨[], by simp⟩, fun i q _ => rfl, fun i r => rfl,
    fun v hv => Or.inl hv, fun i hne => absurd rfl hne, fun v hv => absurd hv (by simp),
    ⟨rfl, rfl, rfl, rfl, rfl, rfl, rfl⟩, by simp⟩

theorem addSpec_skip {e : TreeElement} {rest : List TreeElement} {p : NodePath}
    {t : QTree} {o : Owner} {t' : QTree} {o' : Owner}
    (hov : overlapsNode e t = false)
    (hs : AddSpec rest p t (o.ensureEntry e.id) t' o') :
    AddSpec (e :: rest) p t o t' o' := by
  obtain ⟨h1, h2, h3, h4, h5, h6, h7, h8⟩ := hs
  refine ⟨?_, ?_, ?_, ?_, ?_, ?_, h7, ?_⟩
  · intro i
    obtain ⟨d, hd⟩ := h1 i
    exact ⟨d, by rw [hd, getEntry_ensureEntry]⟩
  · intro i q hq
    rw [h2 i q hq, getEntry_ensureEntry]
  · intro i r
    have := h3 i r
    rwa [getEntry_ensureEntry] at this
  · intro v hv
    rcases h4 v hv with h | h
    · exact Or.inl h
    · exact Or.inr (List.mem_cons_of_mem _ h)
  · intro i hne
    have hne2 : o'.getEntry i ≠ (o.ensureEntry e.id).getEntry i := by
      rw [getEntry_ensureEntry]; exact hne
    rcases h5 i hne2 with ⟨v, hv, hvi⟩ | h
    · exact Or.inl ⟨v, List.mem_cons_of_mem _ hv, hvi⟩
    · exact Or.inr h
  · intro v hv hvo
    rcases List.mem_cons.mp hv with rfl | hv2
    · rw [overlapsNode] at hov
      rw [hvo] at hov
      cases hov
    · exact h6 v hv2 hvo
  · rw [h8, List.filter_cons]
    rw [overlapsNode] at hov
    simp [hov]

end QuadTree

namespace QuadTree

open QTree Owner

theorem getEntry_step (o : Owner) (i j : Nat) (p : NodePath) :
    ((o.ensureEntry j).appendPath j p).getEntry i =
      o.getEntry i ++ (if i = j then [p] else []) := by
  by_cases h : i = j
  · subst h
    rw [getEntry_appendPath_self, getEntry_ensureEntry]
    simp
  · rw [getEntry_appendPath_other _ _ _ _ h, getEntry_ensureEntry]
    simp [h]

theorem entriesExt_trans {oa ob oc : Owner}
    (hab : ∀ i, ∃ d, ob.getEntry i = oa.getEntry i ++ d)
    (hbc : ∀ i, ∃ d, oc.getEntry i = ob.getEntry i ++ d) :
    ∀ i, ∃ d, oc.getEntry i = oa.getEntry i ++ d := by
  intro i
  obtain ⟨a, ha⟩ := hab i
  obtain ⟨b, hb⟩ := hbc i
  exact ⟨a ++ b, by rw [hb, ha, List.append_assoc]⟩

theorem mem_getEntry_mono {oa ob : Owner}
    (hab : ∀ i, ∃ d, ob.getEntry i = oa.getEntry i ++ d)
    {i : Nat} {a : NodePath} (ha : a ∈ oa.getEntry i) : a ∈ ob.getEntry i := by
  obtain ⟨d, hd⟩ := hab i
  rw [hd]
  exact List.mem_append_left _ ha

theorem treeElems_node_none (x y w h : ℚ) (me : Nat) (md : Int) (d : Nat)
    (els : List TreeElement) :
    treeElems (QTree.node x y w h me md d els none) = els := by
  simp [treeElems]

theorem treeElems_node_some (x y w h : ℚ) (me : Nat) (md : Int) (d : Nat)
    (els : List TreeElement) (c0 c1 c2 c3 : QTree) :
    treeElems (QTree.node x y w h me md d els (some (c0, c1, c2, c3))) =
      els ++ (treeElems c0 ++ treeElems c1 ++ treeElems c2 ++ treeElems c3) := by
  simp [treeElems]

theorem elemCntId_child0 (x y w h : ℚ) (me : Nat) (md : Int) (d : Nat)
    (els : List TreeElement) (c0 c1 c2 c3 : QTree) (q : NodePath) (i : Nat) :
    elemCntId (QTree.node x y w h me md d els (some (c0, c1, c2, c3))) (0 :: q) i =
      elemCntId c0 q i := by
  simp [elemCntId]

theorem elemCntId_child1 (x y w h : ℚ) (me : Nat) (md : Int) (d : Nat)
    (els : List TreeElement) (c0 c1 c2 c3 : QTree) (q : NodePath) (i : Nat) :
    elemCntId (QTree.node x y w h me md d els (some (c0, c1, c2, c3))) (1 :: q) i =
      elemCntId c1 q i := by
  simp [elemCntId]

theorem elemCntId_child2 (x y w h : ℚ) (me : Nat) (md : Int) (d : Nat)
    (els : List TreeElement) (c0 c1 c2 c3 : QTree) (q : NodePath) (i : Nat) :
    elemCntId (QTree.node x y w h me md d els (some (c0, c1, c2, c3))) (2 :: q) i =
      elemCntId c2 q i := by
  simp [elemCntId]

theorem elemCntId_child3 (x y w h : ℚ) (me : Nat) (md : Int) (d : Nat)
    (els : List TreeElement) (c0 c1 c2 c3 : QTree) (q : NodePath) (i : Nat) :
    elemCntId (QTree.node x y w h me md d els (some (c0, c1, c2, c3))) (3 :: q) i =
      elemCntId c3 q i := by
  simp [elemCntId]

theorem elemCntVal_child0 (x y w h : ℚ) (me : Nat) (md : Int) (d : Nat)
    (els : List TreeElement) (c0 c1 c2 c3 : QTree) (q : NodePath) (e : TreeElement) :
    elemCntVal (QTree.node x y w h me md d els (some (c0, c1, c2, c3))) (0 :: q) e =
      elemCntVal c0 q e := by
  simp [elemCntVal]

theorem elemCntVal_child1 (x y w h : ℚ) (me : Nat) (md : Int) (d : Nat)
    (els : List TreeElement) (c0 c1 c2 c3 : QTree) (q : NodePath) (e : TreeElement) :
    elemCntVal (QTree.node x y w h me md d els (some (c0, c1, c2, c3))) (1 :: q) e =
      elemCntVal c1 q e := by
  simp [elemCntVal]

theorem elemCntVal_child2 (x y w h : ℚ) (me : Nat) (md : Int) (d : Nat)
    (els : List TreeElement) (c0 c1 c2 c3 : QTree) (q : NodePath) (e : TreeElement) :
    elemCntVal (QTree.node x y w h me md d els (some (c0, c1, c2, c3))) (2 :: q) e =
      elemCntVal c2 q e := by
  simp [elemCntVal]

theorem elemCntVal_child3 (x y w h : ℚ) (me : Nat) (md : Int) (d : Nat)
    (els : List TreeElement) (c0 c1 c2 c3 : QTree) (q : NodePath) (e : TreeElement) :
    elemCntVal (QTree.node x y w h me md d els (some (c0, c1, c2, c3))) (3 :: q) e =
      elemCntVal c3 q e := by
  simp [elemCntVal]

end QuadTree

namespace QuadTree

open QTree Owner

theorem ne_extend_self (p : NodePath) (j : Nat) : ∀ s, p ≠ (p ++ [j]) ++ s := by
  intro s h
  rw [List.append_assoc] at h
  exact path_ne_extend p j s h

theorem ne_extend_of_ne_head {j k : Nat} (p : NodePath) (r' : NodePath) (hjk : k ≠ j) :
    ∀ s, p ++ k :: r' ≠ (p ++ [j]) ++ s := by
  intro s h
  rw [List.append_assoc, List.singleton_append] at h
  exact hjk (path_extend_inj h).1

theorem count_getEntry_step_ne {o : Owner} {j : Nat} (i : Nat) {p q : NodePath} (hq : q ≠ p) :
    (((o.ensureEntry j).appendPath j p).getEntry i).count q = (o.getEntry i).count q := by
  rw [getEntry_step]
  by_cases h : i = j
  · simp [h, List.count_append, List.count_singleton', hq]
  · simp [h]

theorem count_getEntry_step_self {o : Owner} {j : Nat} (i : Nat) (p : NodePath) :
    (((o.ensureEntry j).appendPath j p).getEntry i).count p =
      (o.getEntry i).count p + (if i = j then 1 else 0) := by
  rw [getEntry_step]
  by_cases h : i = j
  · simp [h, List.count_append]
  · simp [h]

end QuadTree

namespace QuadTree

open QTree Owner

theorem addSpec_descend {e : TreeElement} {rest : List TreeElement} {p : NodePath}
    {tx ty tw th : ℚ} {tme : Nat} {tmd : Int} {td : Nat} {tels : List TreeElement}
    {c0 c1 c2 c3 c0' c1' c2' c3' : QTree} {o o3 o2 o1 o0 o' : Owner} {t' : QTree}
    (hov : e.IsInsideRect tx ty tw th = true)
    (s3 : AddSpec [e] (p ++ [3]) c3 ((o.ensureEntry e.id).appendPath e.id p) c3' o3)
    (s2 : AddSpec [e] (p ++ [2]) c2 o3 c2' o2)
    (s1 : AddSpec [e] (p ++ [1]) c1 o2 c1' o1)
    (s0 : AddSpec [e] (p ++ [0]) c0 o1 c0' o0)
    (sc : AddSpec rest p
        (QTree.node tx ty tw th tme tmd td (tels ++ [e]) (some (c0', c1', c2', c3'))) o0 t' o') :
    AddSpec (e :: rest) p (QTree.node tx ty tw th tme tmd td tels (some (c0, c1, c2, c3))) o t' o' := by
  obtain ⟨s3e, s3u, s3c, s3m, s3p, s3r, s3cfg, s3el⟩ := s3
  obtain ⟨s2e, s2u, s2c, s2m, s2p, s2r, s2cfg, s2el⟩ := s2
  obtain ⟨s1e, s1u, s1c, s1m, s1p, s1r, s1cfg, s1el⟩ := s1
  obtain ⟨s0e, s0u, s0c, s0m, s0p, s0r, s0cfg, s0el⟩ := s0
  obtain ⟨sce, scu, scc, scm, scp, scr, sccfg, scel⟩ := sc
  have hstepExt : ∀ i, ∃ d,
      (((o.ensureEntry e.id).appendPath e.id p).getEntry i) = o.getEntry i ++ d :=
    fun i => ⟨if i = e.id then [p] else [], getEntry_step o i e.id p⟩
  have hExt : ∀ i, ∃ d, o'.getEntry i = o.getEntry i ++ d :=
    entriesExt_trans (entriesExt_trans (entriesExt_trans (entriesExt_trans
      (entriesExt_trans hstepExt s3e) s2e) s1e) s0e) sce
  refine ⟨hExt, ?_, ?_, ?_, ?_, ?_, ?_, ?_⟩
  · -- clause 2: paths outside p's subtree unchanged
    intro i q hq
    have hqp : q ≠ p := by simpa using hq []
    rw [scu i q hq,
      s0u i q (fun s hs => hq (0 :: s) (by simpa using hs)),
      s1u i q (fun s hs => hq (1 :: s) (by simpa using hs)),
      s2u i q (fun s hs => hq (2 :: s) (by simpa using hs)),
      s3u i q (fun s hs => hq (3 :: s) (by simpa using hs)),
      count_getEntry_step_ne i hqp]
  · -- clause 3: lockstep counting inside p's subtree
    intro i r
    cases r with
    | nil =>
        have k3 := s3u i p (ne_extend_self p 3)
        have k2 := s2u i p (ne_extend_self p 2)
        have k1 := s1u i p (ne_extend_self p 1)
        have k0 := s0u i p (ne_extend_self p 0)
        have kc := scc i []
        have hstep := @count_getEntry_step_self o e.id i p
        simp only [List.append_nil] at kc ⊢
        rw [elemCntId_nil, elemCntId_nil] at kc
        rw [elemCntId_nil, elemCntId_nil]
        simp only [QTree.elements] at kc ⊢
        rw [List.countP_append] at kc
        by_cases hie : i = e.id
        · subst hie
          simp only [List.countP_cons, List.countP_nil, decide_eq_true_eq, if_pos rfl] at kc
          simp only [if_pos rfl] at hstep
          omega
        · have hne2 : ¬ (e.id = i) := fun hh => hie hh.symm
          have hcp : (List.countP (fun v => decide (v.id = i)) [e]) = 0 := by
            simp [List.countP_cons, List.countP_nil, hne2]
          rw [hcp] at kc
          simp only [if_neg hie] at hstep
          omega
    | cons k r' =>
        have hkeq : ∀ j : Nat, (p ++ [j]) ++ r' = p ++ j :: r' := by
          intro j
          rw [List.append_assoc, List.singleton_append]
        have hqp : p ++ k :: r' ≠ p := fun h => path_ne_extend p k r' h.symm
        have hstep := @count_getEntry_step_ne o e.id i _ _ hqp
        rcases eq_or_ne k 0 with rfl | hk0
        · have u3 := s3u i (p ++ 0 :: r') (ne_extend_of_ne_head p r' (by omega))
          have u2 := s2u i (p ++ 0 :: r') (ne_extend_of_ne_head p r' (by omega))
          have u1 := s1u i (p ++ 0 :: r') (ne_extend_of_ne_head p r' (by omega))
          have cc := s0c i r'
          rw [hkeq 0] at cc
          have kc := scc i (0 :: r')
          rw [elemCntId_child0] at kc
          rw [elemCntId_child0]
          omega
        rcases eq_or_ne k 1 with rfl | hk1
        · have u3 := s3u i (p ++ 1 :: r') (ne_extend_of_ne_head p r' (by omega))
          have u2 := s2u i (p ++ 1 :: r') (ne_extend_of_ne_head p r' (by omega))
          have u0 := s0u i (p ++ 1 :: r') (ne_extend_of_ne_head p r' (by omega))
          have cc := s1c i r'
          rw [hkeq 1] at cc
          have kc := scc i (1 :: r')
          rw [elemCntId_child1] at kc
          rw [elemCntId_child1]
          omega
        rcases eq_or_ne k 2 with rfl | hk2
        · have u3 := s3u i (p ++ 2 :: r') (ne_extend_of_ne_head p r' (by omega))
          have u1 := s1u i (p ++ 2 :: r') (ne_extend_of_ne_head p r' (by omega))
          have u0 := s0u i (p ++ 2 :: r') (ne_extend_of_ne_head p r' (by omega))
          have cc := s2c i r'
          rw [hkeq 2] at cc
          have kc := scc i (2 :: r')
          rw [elemCntId_child2] at kc
          rw [elemCntId_child2]
          omega
        rcases eq_or_ne k 3 with rfl | hk3
        · have u2 := s2u i (p ++ 3 :: r') (ne_extend_of_ne_head p r' (by omega))
          have u1 := s1u i (p ++ 3 :: r') (ne_extend_of_ne_head p r' (by omega))
          have u0 := s0u i (p ++ 3 :: r') (ne_extend_of_ne_head p r' (by omega))
          have cc := s3c i r'
          rw [hkeq 3] at cc
          have kc := scc i (3 :: r')
          rw [elemCntId_child3] at kc
          rw [elemCntId_child3]
          omega
        · have u3 := s3u i (p ++ k :: r') (ne_extend_of_ne_head p r' hk3)
          have u2 := s2u i (p ++ k :: r') (ne_extend_of_ne_head p r' hk2)
          have u1 := s1u i (p ++ k :: r') (ne_extend_of_ne_head p r' hk1)
          have u0 := s0u i (p ++ k :: r') (ne_extend_of_ne_head p r' hk0)
          have kc := scc i (k :: r')
          have hk4 : 4 ≤ k := by omega
          rw [elemCntId_ge4 _ _ _ _ hk4, elemCntId_ge4 _ _ _ _ hk4] at kc
          rw [elemCntId_ge4 _ _ _ _ hk4, elemCntId_ge4 _ _ _ _ hk4]
          omega
  · -- clause 4: provenance of stored elements
    intro v hv
    rcases scm v hv with hmem | hrest
    · rw [treeElems_node_some] at hmem
      rcases List.mem_append.mp hmem with hels | hkids
      · rcases List.mem_append.mp hels with h | h
        · exact Or.inl (mem_elements_treeElems (by simpa [QTree.elements] using h))
        · simp only [List.mem_singleton] at h
          exact Or.inr (by simp [h])
      · have hsub : ∀ w, w ∈ treeElems c0' ∨ w ∈ treeElems c1' ∨ w ∈ treeElems c2' ∨
            w ∈ treeElems c3' → w ∈ treeElems
              (QTree.node tx ty tw th tme tmd td tels (some (c0, c1, c2, c3))) ∨ w = e := by
          intro w hw
          have hx : ∀ (cj cj' : QTree), (∀ u ∈ treeElems cj', u ∈ treeElems cj ∨ u ∈ [e]) →
              w ∈ treeElems cj' →
              (w ∈ treeElems cj ∨ w = e) := by
            intro cj cj' hspec hw2
            rcases hspec w hw2 with h | h
            · exact Or.inl h
            · exact Or.inr (by simpa using h)
          have hlift : w ∈ treeElems c0 ∨ w ∈ treeElems c1 ∨
              w ∈ treeElems c2 ∨ w ∈ treeElems c3 →
              w ∈ treeElems (QTree.node tx ty tw th tme tmd td tels (some (c0, c1, c2, c3))) := by
            intro hw3
            rw [treeElems_node_some]
            rcases hw3 with h | h | h | h <;>
              simp [List.mem_append, h]
          rcases hw with hw0 | hw1 | hw2 | hw3
          · rcases hx c0 c0' s0m hw0 with h | h
            · exact Or.inl (hlift (Or.inl h))
            · exact Or.inr h
          · rcases hx c1 c1' s1m hw1 with h | h
            · exact Or.inl (hlift (Or.inr (Or.inl h)))
            · exact Or.inr h
          · rcases hx c2 c2' s2m hw2 with h | h
            · exact Or.inl (hlift (Or.inr (Or.inr (Or.inl h))))
            · exact Or.inr h
          · rcases hx c3 c3' s3m hw3 with h | h
            · exact Or.inl (hlift (Or.inr (Or.inr (Or.inr h))))
            · exact Or.inr h
        rcases List.mem_append.mp hkids with h123 | h3
        · rcases List.mem_append.mp h123 with h12 | h2
          · rcases List.mem_append.mp h12 with h0 | h1
            · rcases hsub v (Or.inl h0) with h | h
              · exact Or.inl h
              · exact Or.inr (by simp [h])
            · rcases hsub v (Or.inr (Or.inl h1)) with h | h
              · exact Or.inl h
              · exact Or.inr (by simp [h])
          · rcases hsub v (Or.inr (Or.inr (Or.inl h2))) with h | h
            · exact Or.inl h
            · exact Or.inr (by simp [h])
        · rcases hsub v (Or.inr (Or.inr (Or.inr h3))) with h | h
          · exact Or.inl h
          · exact Or.inr (by simp [h])
    · exact Or.inr (List.mem_cons_of_mem _ hrest)
  · -- clause 5: provenance of changed entries
    intro i hne
    by_cases hie : i = e.id
    · exact Or.inl ⟨e, List.mem_cons_self _ _, hie.symm⟩
    · -- the first step does not change entry i
      have hstep : (((o.ensureEntry e.id).appendPath e.id p).getEntry i) = o.getEntry i := by
        rw [getEntry_step, if_neg hie, List.append_nil]
      have hmid : ∀ {oA oB : Owner} {cj cj' : QTree} {pj : NodePath},
          AddSpec [e] pj cj oA cj' oB → oB.getEntry i ≠ oA.getEntry i →
          ∃ v ∈ treeElems cj, v.id = i := by
        intro oA oB cj cj' pj hspec hne2
        rcases hspec.2.2.2.2.1 i hne2 with ⟨v, hv, hvi⟩ | h
        · simp only [List.mem_singleton] at hv
          exact absurd (hv ▸ hvi).symm hie
        · exact h
      have memlift : ∀ {cj : QTree},
          (cj = c0 ∨ cj = c1 ∨ cj = c2 ∨ cj = c3) →
          (∃ v ∈ treeElems cj, v.id = i) →
          ∃ v ∈ treeElems (QTree.node tx ty tw th tme tmd td tels (some (c0, c1, c2, c3))),
            v.id = i := by
        rintro cj hj ⟨v, hv, hvi⟩
        refine ⟨v, ?_, hvi⟩
        rw [treeElems_node_some]
        rcases hj with rfl | rfl | rfl | rfl <;> simp [List.mem_append, hv]
      by_cases h3 : o3.getEntry i = (((o.ensureEntry e.id).appendPath e.id p).getEntry i)
      · by_cases h2 : o2.getEntry i = o3.getEntry i
        · by_cases h1 : o1.getEntry i = o2.getEntry i
          · by_cases h0 : o0.getEntry i = o1.getEntry i
            · -- change came from the continuation
              have hnec : o'.getEntry i ≠ o0.getEntry i := by
                rw [h0, h1, h2, h3, hstep]; exact hne
              rcases scp i hnec with ⟨v, hv, hvi⟩ | ⟨v, hv, hvi⟩
              · exact Or.inl ⟨v, List.mem_cons_of_mem _ hv, hvi⟩
              · rw [treeElems_node_some] at hv
                rcases List.mem_append.mp hv with hels | hkids
                · rcases List.mem_append.mp hels with h | h
                  · exact Or.inr ⟨v, mem_elements_treeElems (by simpa [QTree.elements] using h), hvi⟩
                  · simp only [List.mem_singleton] at h
                    exact absurd (h ▸ hvi).symm hie
                · rcases List.mem_append.mp hkids with h123 | hk3
                  · rcases List.mem_append.mp h123 with h12 | hk2
                    · rcases List.mem_append.mp h12 with hk0 | hk1
                      · rcases s0m v hk0 with h | h
                        · exact Or.inr (memlift (Or.inl rfl) ⟨v, h, hvi⟩)
                        · simp only [List.mem_singleton] at h
                          exact absurd (h ▸ hvi).symm hie
                      · rcases s1m v hk1 with h | h
                        · exact Or.inr (memlift (Or.inr (Or.inl rfl)) ⟨v, h, hvi⟩)
                        · simp only [List.mem_singleton] at h
                          exact absurd (h ▸ hvi).symm hie
                    · rcases s2m v hk2 with h | h
                      · exact Or.inr (memlift (Or.inr (Or.inr (Or.inl rfl))) ⟨v, h, hvi⟩)
                      · simp only [List.mem_singleton] at h
                        exact absurd (h ▸ hvi).symm hie
                  · rcases s3m v hk3 with h | h
                    · exact Or.inr (memlift (Or.inr (Or.inr (Or.inr rfl))) ⟨v, h, hvi⟩)
                    · simp only [List.mem_singleton] at h
                      exact absurd (h ▸ hvi).symm hie
            · exact Or.inr (memlift (Or.inl rfl)
                (hmid ⟨s0e, s0u, s0c, s0m, s0p, s0r, s0cfg, s0el⟩ h0))
          · exact Or.inr (memlift (Or.inr (Or.inl rfl))
              (hmid ⟨s1e, s1u, s1c, s1m, s1p, s1r, s1cfg, s1el⟩ h1))
        · exact Or.inr (memlift (Or.inr (Or.inr (Or.inl rfl)))
            (hmid ⟨s2e, s2u, s2c, s2m, s2p, s2r, s2cfg, s2el⟩ h2))
      · exact Or.inr (memlift (Or.inr (Or.inr (Or.inr rfl)))
          (hmid ⟨s3e, s3u, s3c, s3m, s3p, s3r, s3cfg, s3el⟩ h3))
  · -- clause 6: every inserted element overlapping the node gets p recorded
    intro v hv hvo
    rcases List.mem_cons.mp hv with rfl | hv2
    · have hmem : p ∈ (((o.ensureEntry v.id).appendPath v.id p).getEntry v.id) := by
        rw [getEntry_appendPath_self]
        exact List.mem_append_right _ (List.mem_singleton_self p)
      exact mem_getEntry_mono sce
        (mem_getEntry_mono s0e (mem_getEntry_mono s1e (mem_getEntry_mono s2e
          (mem_getEntry_mono s3e hmem))))
    · exact scr v hv2 (by simpa [QTree.x, QTree.y, QTree.width, QTree.height] using hvo)
  · -- clause 7: configuration preserved
    simpa [QTree.x, QTree.y, QTree.width, QTree.height, QTree.maxElements, QTree.maxDepth,
      QTree.depth] using sccfg
  · -- clause 8: top-level elements
    rw [scel]
    simp only [QTree.elements, QTree.x, QTree.y, QTree.width, QTree.height]
    rw [List.filter_cons, hov]
    simp

end QuadTree

namespace QuadTree

open QTree Owner

theorem elemCntId_fresh (bx by' bw bh : ℚ) (me : Nat) (md : Int) (d : Nat)
    (r : NodePath) (i : Nat) :
    elemCntId (QTree.node bx by' bw bh me md d [] none) r i = 0 := by
  cases r with
  | nil => simp [elemCntId_nil, QTree.elements]
  | cons j q => exact elemCntId_none _ _ _ _ _ _ _ _ _ _ _

theorem addSpec_split {e : TreeElement} {rest : List TreeElement} {p : NodePath}
    {tx ty tw th : ℚ} {tme : Nat} {tmd : Int} {td : Nat} {tels : List TreeElement}
    {F0 F1 F2 F3 k0 k1 k2 k3 : QTree} {o oA oB oC oD o' : Owner} {t' : QTree}
    (hov : e.IsInsideRect tx ty tw th = true)
    (hF0 : F0 = QTree.node tx ty (tw / 2) (th / 2) tme tmd (td + 1) [] none)
    (hF1 : F1 = QTree.node (tx + tw / 2) ty (tw / 2) (th / 2) tme tmd (td + 1) [] none)
    (hF2 : F2 = QTree.node tx (ty + th / 2) (tw / 2) (th / 2) tme tmd (td + 1) [] none)
    (hF3 : F3 = QTree.node (tx + tw / 2) (ty + th / 2) (tw / 2) (th / 2) tme tmd (td + 1) [] none)
    (s0 : AddSpec (tels ++ [e]) (p ++ [0]) F0 ((o.ensureEntry e.id).appendPath e.id p) k0 oA)
    (s1 : AddSpec (tels ++ [e]) (p ++ [1]) F1 oA k1 oB)
    (s2 : AddSpec (tels ++ [e]) (p ++ [2]) F2 oB k2 oC)
    (s3 : AddSpec (tels ++ [e]) (p ++ [3]) F3 oC k3 oD)
    (sc : AddSpec rest p
        (QTree.node tx ty tw th tme tmd td (tels ++ [e]) (some (k0, k1, k2, k3))) oD t' o') :
    AddSpec (e :: rest) p (QTree.node tx ty tw th tme tmd td tels none) o t' o' := by
  obtain ⟨s0e, s0u, s0c, s0m, s0p, s0r, s0cfg, s0el⟩ := s0
  obtain ⟨s1e, s1u, s1c, s1m, s1p, s1r, s1cfg, s1el⟩ := s1
  obtain ⟨s2e, s2u, s2c, s2m, s2p, s2r, s2cfg, s2el⟩ := s2
  obtain ⟨s3e, s3u, s3c, s3m, s3p, s3r, s3cfg, s3el⟩ := s3
  obtain ⟨sce, scu, scc, scm, scp, scr, sccfg, scel⟩ := sc
  have hFm : ∀ v, (v ∈ treeElems F0 ∨ v ∈ treeElems F1 ∨ v ∈ treeElems F2 ∨ v ∈ treeElems F3) →
      False := by
    intro v hv
    rcases hv with h | h | h | h <;>
      first
      | (rw [hF0, treeElems_node_none] at h; exact absurd h (List.not_mem_nil v))
      | (rw [hF1, treeElems_node_none] at h; exact absurd h (List.not_mem_nil v))
      | (rw [hF2, treeElems_node_none] at h; exact absurd h (List.not_mem_nil v))
      | (rw [hF3, treeElems_node_none] at h; exact absurd h (List.not_mem_nil v))
  have hstepExt : ∀ i, ∃ d,
      (((o.ensureEntry e.id).appendPath e.id p).getEntry i) = o.getEntry i ++ d :=
    fun i => ⟨if i = e.id then [p] else [], getEntry_step o i e.id p⟩
  have hExt : ∀ i, ∃ d, o'.getEntry i = o.getEntry i ++ d :=
    entriesExt_trans (entriesExt_trans (entriesExt_trans (entriesExt_trans
      (entriesExt_trans hstepExt s0e) s1e) s2e) s3e) sce
  have htels1 : ∀ v, v ∈ tels ++ [e] →
      v ∈ treeElems (QTree.node tx ty tw th tme tmd td tels none) ∨ v = e := by
    intro v hv
    rcases List.mem_append.mp hv with h | h
    · exact Or.inl (by rw [treeElems_node_none]; exact h)
    · exact Or.inr (by simpa using h)
  refine ⟨hExt, ?_, ?_, ?_, ?_, ?_, ?_, ?_⟩
  · -- clause 2
    intro i q hq
    have hqp : q ≠ p := by simpa using hq []
    rw [scu i q hq,
      s3u i q (fun s hs => hq (3 :: s) (by simpa using hs)),
      s2u i q (fun s hs => hq (2 :: s) (by simpa using hs)),
      s1u i q (fun s hs => hq (1 :: s) (by simpa using hs)),
      s0u i q (fun s hs => hq (0 :: s) (by simpa using hs)),
      count_getEntry_step_ne i hqp]
  · -- clause 3
    intro i r
    cases r with
    | nil =>
        have u0 := s0u i p (ne_extend_self p 0)
        have u1 := s1u i p (ne_extend_self p 1)
        have u2 := s2u i p (ne_extend_self p 2)
        have u3 := s3u i p (ne_extend_self p 3)
        have kc := scc i []
        have hstep := @count_getEntry_step_self o e.id i p
        simp only [List.append_nil] at kc ⊢
        rw [elemCntId_nil, elemCntId_nil] at kc
        rw [elemCntId_nil, elemCntId_nil]
        simp only [QTree.elements] at kc ⊢
        rw [List.countP_append] at kc
        by_cases hie : i = e.id
        · subst hie
          simp only [List.countP_cons, List.countP_nil, decide_eq_true_eq, if_pos rfl] at kc
          simp only [if_pos rfl] at hstep
          omega
        · have hne2 : ¬ (e.id = i) := fun hh => hie hh.symm
          have hcp : (List.countP (fun v => decide (v.id = i)) [e]) = 0 := by
            simp [List.countP_cons, List.countP_nil, hne2]
          rw [hcp] at kc
          simp only [if_neg hie] at hstep
          omega
    | cons k r' =>
        have hkeq : ∀ j : Nat, (p ++ [j]) ++ r' = p ++ j :: r' := by
          intro j
          rw [List.append_assoc, List.singleton_append]
        have hqp : p ++ k :: r' ≠ p := fun h => path_ne_extend p k r' h.symm
        have hstep := @count_getEntry_step_ne o e.id i _ _ hqp
        rw [elemCntId_none]
        rcases eq_or_ne k 0 with rfl | hk0
        · have u3 := s3u i (p ++ 0 :: r') (ne_extend_of_ne_head p r' (by omega))
          have u2 := s2u i (p ++ 0 :: r') (ne_extend_of_ne_head p r' (by omega))
          have u1 := s1u i (p ++ 0 :: r') (ne_extend_of_ne_head p r' (by omega))
          have cc := s0c i r'
          rw [hkeq 0, hF0, elemCntId_fresh] at cc
          have kc := scc i (0 :: r')
          rw [elemCntId_child0] at kc
          omega
        rcases eq_or_ne k 1 with rfl | hk1
        · have u3 := s3u i (p ++ 1 :: r') (ne_extend_of_ne_head p r' (by omega))
          have u2 := s2u i (p ++ 1 :: r') (ne_extend_of_ne_head p r' (by omega))
          have u0 := s0u i (p ++ 1 :: r') (ne_extend_of_ne_head p r' (by omega))
          have cc := s1c i r'
          rw [hkeq 1, hF1, elemCntId_fresh] at cc
          have kc := scc i (1 :: r')
          rw [elemCntId_child1] at kc
          omega
        rcases eq_or_ne k 2 with rfl | hk2
        · have u3 := s3u i (p ++ 2 :: r') (ne_extend_of_ne_head p r' (by omega))
          have u1 := s1u i (p ++ 2 :: r') (ne_extend_of_ne_head p r' (by omega))
          have u0 := s0u i (p ++ 2 :: r') (ne_extend_of_ne_head p r' (by omega))
          have cc := s2c i r'
          rw [hkeq 2, hF2, elemCntId_fresh] at cc
          have kc := scc i (2 :: r')
          rw [elemCntId_child2] at kc
          omega
        rcases eq_or_ne k 3 with rfl | hk3
        · have u2 := s2u i (p ++ 3 :: r') (ne_extend_of_ne_head p r' (by omega))
          have u1 := s1u i (p ++ 3 :: r') (ne_extend_of_ne_head p r' (by omega))
          have u0 := s0u i (p ++ 3 :: r') (ne_extend_of_ne_head p r' (by omega))
          have cc := s3c i r'
          rw [hkeq 3, hF3, elemCntId_fresh] at cc
          have kc := scc i (3 :: r')
          rw [elemCntId_child3] at kc
          omega
        · have u3 := s3u i (p ++ k :: r') (ne_extend_of_ne_head p r' hk3)
          have u2 := s2u i (p ++ k :: r') (ne_extend_of_ne_head p r' hk2)
          have u1 := s1u i (p ++ k :: r') (ne_extend_of_ne_head p r' hk1)
          have u0 := s0u i (p ++ k :: r') (ne_extend_of_ne_head p r' hk0)
          have kc := scc i (k :: r')
          have hk4 : 4 ≤ k := by omega
          rw [elemCntId_ge4 _ _ _ _ hk4, elemCntId_ge4 _ _ _ _ hk4] at kc
          rw [elemCntId_ge4 _ _ _ _ hk4]
          omega
  · -- clause 4
    intro v hv
    rcases scm v hv with hmem | hrest
    · rw [treeElems_node_some] at hmem
      rcases List.mem_append.mp hmem with hels | hkids
      · rcases htels1 v hels with h | h
        · exact Or.inl h
        · exact Or.inr (by simp [h])
      · have hchild : ∀ (F K : QTree), (∀ u ∈ treeElems K, u ∈ treeElems F ∨ u ∈ tels ++ [e]) →
            (treeElems F = []) → v ∈ treeElems K →
            v ∈ treeElems (QTree.node tx ty tw th tme tmd td tels none) ∨ v = e := by
          intro F K hspec hFnil hvK
          rcases hspec v hvK with h | h
          · rw [hFnil] at h
            exact absurd h (List.not_mem_nil v)
          · exact htels1 v h
        rcases List.mem_append.mp hkids with h123 | h3
        · rcases List.mem_append.mp h123 with h12 | h2
          · rcases List.mem_append.mp h12 with h0 | h1
            · rcases hchild F0 k0 s0m (by rw [hF0, treeElems_node_none]) h0 with h | h
              · exact Or.inl h
              · exact Or.inr (by simp [h])
            · rcases hchild F1 k1 s1m (by rw [hF1, treeElems_node_none]) h1 with h | h
              · exact Or.inl h
              · exact Or.inr (by simp [h])
          · rcases hchild F2 k2 s2m (by rw [hF2, treeElems_node_none]) h2 with h | h
            · exact Or.inl h
            · exact Or.inr (by simp [h])
        · rcases hchild F3 k3 s3m (by rw [hF3, treeElems_node_none]) h3 with h | h
          · exact Or.inl h
          · exact Or.inr (by simp [h])
    · exact Or.inr (List.mem_cons_of_mem _ hrest)
  · -- clause 5
    intro i hne
    by_cases hie : i = e.id
    · exact Or.inl ⟨e, List.mem_cons_self _ _, hie.symm⟩
    · have hstep : (((o.ensureEntry e.id).appendPath e.id p).getEntry i) = o.getEntry i := by
        rw [getEntry_step, if_neg hie, List.append_nil]
      have hsrc : ∀ (w : TreeElement), w ∈ tels ++ [e] → w.id = i →
          ∃ v ∈ treeElems (QTree.node tx ty tw th tme tmd td tels none), v.id = i := by
        intro w hw hwi
        rcases List.mem_append.mp hw with h | h
        · exact ⟨w, by rw [treeElems_node_none]; exact h, hwi⟩
        · simp only [List.mem_singleton] at h
          exact absurd (h ▸ hwi).symm hie
      have hmid : ∀ {oX oY : Owner} {F K : QTree} {pj : NodePath},
          AddSpec (tels ++ [e]) pj F oX K oY → (treeElems F = []) →
          oY.getEntry i ≠ oX.getEntry i →
          ∃ v ∈ treeElems (QTree.node tx ty tw th tme tmd td tels none), v.id = i := by
        intro oX oY F K pj hspec hFnil hne2
        rcases hspec.2.2.2.2.1 i hne2 with ⟨w, hw, hwi⟩ | ⟨w, hw, hwi⟩
        · exact hsrc w hw hwi
        · rw [hFnil] at hw
          exact absurd hw (List.not_mem_nil w)
      by_cases h0 : oA.getEntry i = (((o.ensureEntry e.id).appendPath e.id p).getEntry i)
      · by_cases h1 : oB.getEntry i = oA.getEntry i
        · by_cases h2 : oC.getEntry i = oB.getEntry i
          · by_cases h3 : oD.getEntry i = oC.getEntry i
            · have hnec : o'.getEntry i ≠ oD.getEntry i := by
                rw [h3, h2, h1, h0, hstep]; exact hne
              rcases scp i hnec with ⟨v, hv, hvi⟩ | ⟨v, hv, hvi⟩
              · exact Or.inl ⟨v, List.mem_cons_of_mem _ hv, hvi⟩
              · rw [treeElems_node_some] at hv
                rcases List.mem_append.mp hv with hels | hkids
                · rcases htels1 v hels with h | h
                  · exact Or.inr ⟨v, h, hvi⟩
                  · exact absurd (h ▸ hvi).symm hie
                · have hback : ∀ (F K : QTree),
                      (∀ u ∈ treeElems K, u ∈ treeElems F ∨ u ∈ tels ++ [e]) →
                      (treeElems F = []) → v ∈ treeElems K →
                      (∃ w ∈ [e], w.id = i) ∨
                        ∃ w ∈ treeElems (QTree.node tx ty tw th tme tmd td tels none), w.id = i := by
                    intro F K hspec hFnil hvK
                    rcases hspec v hvK with h | h
                    · rw [hFnil] at h
                      exact absurd h (List.not_mem_nil v)
                    · exact Or.inr (hsrc v h hvi)
                  have hres : (∃ w ∈ [e], w.id = i) ∨
                      ∃ w ∈ treeElems (QTree.node tx ty tw th tme tmd td tels none), w.id = i := by
                    rcases List.mem_append.mp hkids with h123 | h3'
                    · rcases List.mem_append.mp h123 with h12 | h2'
                      · rcases List.mem_append.mp h12 with h0' | h1'
                        · exact hback F0 k0 s0m (by rw [hF0, treeElems_node_none]) h0'
                        · exact hback F1 k1 s1m (by rw [hF1, treeElems_node_none]) h1'
                      · exact hback F2 k2 s2m (by rw [hF2, treeElems_node_none]) h2'
                    · exact hback F3 k3 s3m (by rw [hF3, treeElems_node_none]) h3'
                  rcases hres with ⟨w, hw, hwi⟩ | h
                  · simp only [List.mem_singleton] at hw
                    exact absurd (hw ▸ hwi).symm hie
                  · exact Or.inr h
            · exact Or.inr (hmid ⟨s3e, s3u, s3c, s3m, s3p, s3r, s3cfg, s3el⟩
                (by rw [hF3, treeElems_node_none]) h3)
          · exact Or.inr (hmid ⟨s2e, s2u, s2c, s2m, s2p, s2r, s2cfg, s2el⟩
              (by rw [hF2, treeElems_node_none]) h2)
        · exact Or.inr (hmid ⟨s1e, s1u, s1c, s1m, s1p, s1r, s1cfg, s1el⟩
            (by rw [hF1, treeElems_node_none]) h1)
      · exact Or.inr (hmid ⟨s0e, s0u, s0c, s0m, s0p, s0r, s0cfg, s0el⟩
          (by rw [hF0, treeElems_node_none]) h0)
  · -- clause 6
    intro v hv hvo
    rcases List.mem_cons.mp hv with rfl | hv2
    · have hmem : p ∈ (((o.ensureEntry v.id).appendPath v.id p).getEntry v.id) := by
        rw [getEntry_appendPath_self]
        exact List.mem_append_right _ (List.mem_singleton_self p)
      exact mem_getEntry_mono sce
        (mem_getEntry_mono s3e (mem_getEntry_mono s2e (mem_getEntry_mono s1e
          (mem_getEntry_mono s0e hmem))))
    · exact scr v hv2 (by simpa [QTree.x, QTree.y, QTree.width, QTree.height] using hvo)
  · -- clause 7
    simpa [QTree.x, QTree.y, QTree.width, QTree.height, QTree.maxElements, QTree.maxDepth,
      QTree.depth] using sccfg
  · -- clause 8
    rw [scel]
    simp only [QTree.elements, QTree.x, QTree.y, QTree.width, QTree.height]
    rw [List.filter_cons, hov]
    simp

end QuadTree

namespace QuadTree

open QTree Owner

theorem addSpec_leafKeep {e : TreeElement} {rest : List TreeElement} {p : NodePath}
    {tx ty tw th : ℚ} {tme : Nat} {tmd : Int} {td : Nat} {tels : List TreeElement}
    {o o' : Owner} {t' : QTree}
    (hov : e.IsInsideRect tx ty tw th = true)
    (sc : AddSpec rest p (QTree.node tx ty tw th tme tmd td (tels ++ [e]) none)
        ((o.ensureEntry e.id).appendPath e.id p) t' o') :
    AddSpec (e :: rest) p (QTree.node tx ty tw th tme tmd td tels none) o t' o' := by
  obtain ⟨sce, scu, scc, scm, scp, scr, sccfg, scel⟩ := sc
  have hstepExt : ∀ i, ∃ d,
      (((o.ensureEntry e.id).appendPath e.id p).getEntry i) = o.getEntry i ++ d :=
    fun i => ⟨if i = e.id then [p] else [], getEntry_step o i e.id p⟩
  have hExt : ∀ i, ∃ d, o'.getEntry i = o.getEntry i ++ d :=
    entriesExt_trans hstepExt sce
  have htels1 : ∀ v, v ∈ tels ++ [e] →
      v ∈ treeElems (QTree.node tx ty tw th tme tmd td tels none) ∨ v = e := by
    intro v hv
    rcases List.mem_append.mp hv with h | h
    · exact Or.inl (by rw [treeElems_node_none]; exact h)
    · exact Or.inr (by simpa using h)
  refine ⟨hExt, ?_, ?_, ?_, ?_, ?_, ?_, ?_⟩
  · intro i q hq
    have hqp : q ≠ p := by simpa using hq []
    rw [scu i q hq, count_getEntry_step_ne i hqp]
  · intro i r
    cases r with
    | nil =>
        have kc := scc i []
        have hstep := @count_getEntry_step_self o e.id i p
        simp only [List.append_nil] at kc ⊢
        rw [elemCntId_nil, elemCntId_nil] at kc
        rw [elemCntId_nil, elemCntId_nil]
        simp only [QTree.elements] at kc ⊢
        rw [List.countP_append] at kc
        by_cases hie : i = e.id
        · subst hie
          simp only [List.countP_cons, List.countP_nil, decide_eq_true_eq, if_pos rfl] at kc
          simp only [if_pos rfl] at hstep
          omega
        · have hne2 : ¬ (e.id = i) := fun hh => hie hh.symm
          have hcp : (List.countP (fun v => decide (v.id = i)) [e]) = 0 := by
            simp [List.countP_cons, List.countP_nil, hne2]
          rw [hcp] at kc
          simp only [if_neg hie] at hstep
          omega
    | cons k r' =>
        have hqp : p ++ k :: r' ≠ p := fun h => path_ne_extend p k r' h.symm
        have hstep := @count_getEntry_step_ne o e.id i _ _ hqp
        have kc := scc i (k :: r')
        rw [elemCntId_none] at kc
        rw [elemCntId_none]
        omega
  · intro v hv
    rcases scm v hv with hmem | hrest
    · rw [treeElems_node_none] at hmem
      rcases htels1 v hmem with h | h
      · exact Or.inl h
      · exact Or.inr (by simp [h])
    · exact Or.inr (List.mem_cons_of_mem _ hrest)
  · intro i hne
    by_cases hie : i = e.id
    · exact Or.inl ⟨e, List.mem_cons_self _ _, hie.symm⟩
    · have hstep : (((o.ensureEntry e.id).appendPath e.id p).getEntry i) = o.getEntry i := by
        rw [getEntry_step, if_neg hie, List.append_nil]
      have hnec : o'.getEntry i ≠ (((o.ensureEntry e.id).appendPath e.id p).getEntry i) := by
        rw [hstep]; exact hne
      rcases scp i hnec with ⟨v, hv, hvi⟩ | ⟨v, hv, hvi⟩
      · exact Or.inl ⟨v, List.mem_cons_of_mem _ hv, hvi⟩
      · rw [treeElems_node_none] at hv
        rcases htels1 v (by exact hv) with h | h
        · exact Or.inr ⟨v, h, hvi⟩
        · exact absurd (h ▸ hvi).symm hie
  · intro v hv hvo
    rcases List.mem_cons.mp hv with rfl | hv2
    · have hmem : p ∈ (((o.ensureEntry v.id).appendPath v.id p).getEntry v.id) := by
        rw [getEntry_appendPath_self]
        exact List.mem_append_right _ (List.mem_singleton_self p)
      exact mem_getEntry_mono sce hmem
    · exact scr v hv2 (by simpa [QTree.x, QTree.y, QTree.width, QTree.height] using hvo)
  · simpa [QTree.x, QTree.y, QTree.width, QTree.height, QTree.maxElements, QTree.maxDepth,
      QTree.depth] using sccfg
  · rw [scel]
    simp only [QTree.elements, QTree.x, QTree.y, QTree.width, QTree.height]
    rw [List.filter_cons, hov]
    simp

end QuadTree

namespace QuadTree

open QTree Owner

theorem addSeq_spec (fuel : Nat) (es : List TreeElement) (p : NodePath) (t : QTree)
    (o : Owner) :
    ∀ t' o', addSeq fuel es p t o = some (t', o') → AddSpec es p t o t' o' := by
  induction fuel, es, p, t, o using addSeq.induct with
  | case1 fuel p t o =>
      intro t' o' h
      simp only [addSeq, Option.some.injEq, Prod.mk.injEq] at h
      obtain ⟨rfl, rfl⟩ := h
      exact addSpec_nil p t o
  | case2 p t o e rest =>
      intro t' o' h
      exact Option.noConfusion (by simpa only [addSeq] using h)
  | case3 p owner f e rest tx ty tw th tme tmd td tels owner0 hov owner1 tels1 c0 c1 c2 c3
      ih3 ih2 ih1 ih0 ihc =>
      intro t' o' h
      simp only [addSeq, hov, if_pos] at h
      simp only [Option.bind_eq_bind'] at h
      rw [Option.bind_eq_some] at h
      obtain ⟨r3, hh3, h⟩ := h
      rw [Option.bind_eq_some] at h
      obtain ⟨r2, hh2, h⟩ := h
      rw [Option.bind_eq_some] at h
      obtain ⟨r1, hh1, h⟩ := h
      rw [Option.bind_eq_some] at h
      obtain ⟨r0, hh0, h⟩ := h
      exact addSpec_descend hov (ih3 r3.1 r3.2 hh3) (ih2 r3.2 r2.1 r2.2 hh2)
        (ih1 r2.2 r1.1 r1.2 hh1) (ih0 r1.2 r0.1 r0.2 hh0)
        (ihc r3.1 r2.1 r1.1 r0.1 r0.2 t' o' h)
  | case4 p owner f e rest tx ty tw th tme tmd td tels owner0 hov owner1 tels1 hcond hw hh
      ih0 ih1 ih2 ih3 ihc =>
      intro t' o' h
      simp only [addSeq, hov, if_pos, hcond] at h
      simp only [Option.bind_eq_bind'] at h
      rw [Option.bind_eq_some] at h
      obtain ⟨r0, hh0, h⟩ := h
      rw [Option.bind_eq_some] at h
      obtain ⟨r1, hh1, h⟩ := h
      rw [Option.bind_eq_some] at h
      obtain ⟨r2, hh2, h⟩ := h
      rw [Option.bind_eq_some] at h
      obtain ⟨r3, hh3, h⟩ := h
      exact addSpec_split hov rfl rfl rfl rfl (ih0 r0.1 r0.2 hh0) (ih1 r0.2 r1.1 r1.2 hh1)
        (ih2 r1.2 r2.1 r2.2 hh2) (ih3 r2.2 r3.1 r3.2 hh3)
        (ihc r0.1 r1.1 r2.1 r3.1 r3.2 t' o' h)
  | case5 p owner f e rest tx ty tw th tme tmd td tels owner0 hov owner1 tels1 hcond ihc =>
      intro t' o' h
      simp only [addSeq, hov, if_pos, hcond, if_neg] at h
      exact addSpec_leafKeep hov (ihc t' o' h)
  | case6 p owner f e rest tx ty tw th tme tmd td tels tch owner0 hov ihc =>
      intro t' o' h
      simp only [addSeq, hov, if_neg] at h
      have hov2 : overlapsNode e (QTree.node tx ty tw th tme tmd td tels tch) = false := by
        simp only [overlapsNode, QTree.x, QTree.y, QTree.width, QTree.height]
        simpa using hov
      exact addSpec_skip hov2 (ihc t' o' h)

end QuadTree

namespace QuadTree

open QTree Owner

theorem mem_child_treeElems {v : TreeElement} {c0 c1 c2 c3 : QTree}
    (x y w h : ℚ) (me : Nat) (md : Int) (d : Nat) (els : List TreeElement)
    (hv : v ∈ treeElems c0 ∨ v ∈ treeElems c1 ∨ v ∈ treeElems c2 ∨ v ∈ treeElems c3) :
    v ∈ treeElems (QTree.node x y w h me md d els (some (c0, c1, c2, c3))) := by
  rw [treeElems_node_some]
  rcases hv with h' | h' | h' | h' <;> simp [List.mem_append, h']

theorem treeElems_to_cnt {v : TreeElement} {t : QTree} (h : v ∈ treeElems t) :
    ∃ q, 0 < elemCntId t q v.id := by
  induction t using treeElems.induct with
  | case1 x y w hh me md d els =>
      rw [treeElems_node_none] at h
      refine ⟨[], ?_⟩
      rw [elemCntId_nil]
      simp only [QTree.elements]
      exact List.countP_pos.mpr ⟨v, h, by simp⟩
  | case2 x y w hh me md d els c0 c1 c2 c3 ih0 ih1 ih2 ih3 =>
      rw [treeElems_node_some] at h
      rcases List.mem_append.mp h with hels | hkids
      · refine ⟨[], ?_⟩
        rw [elemCntId_nil]
        simp only [QTree.elements]
        exact List.countP_pos.mpr ⟨v, hels, by simp⟩
      · rcases List.mem_append.mp hkids with h123 | h3
        · rcases List.mem_append.mp h123 with h12 | h2
          · rcases List.mem_append.mp h12 with h0 | h1
            · obtain ⟨q, hq⟩ := ih0 h0
              exact ⟨0 :: q, by rwa [elemCntId_child0]⟩
            · obtain ⟨q, hq⟩ := ih1 h1
              exact ⟨1 :: q, by rwa [elemCntId_child1]⟩
          · obtain ⟨q, hq⟩ := ih2 h2
            exact ⟨2 :: q, by rwa [elemCntId_child2]⟩
        · obtain ⟨q, hq⟩ := ih3 h3
          exact ⟨3 :: q, by rwa [elemCntId_child3]⟩

theorem addSeq_single_notOverlap {fuel : Nat} {e : TreeElement} {p : NodePath} {t : QTree}
    {o : Owner} {t' : QTree} {o' : Owner} (hov : overlapsNode e t = false)
    (h : addSeq fuel [e] p t o = some (t', o')) : t' = t ∧ o' = o.ensureEntry e.id := by
  cases fuel with
  | zero => exact Option.noConfusion (by simpa only [addSeq] using h)
  | succ f =>
      cases t with
      | node tx ty tw th tme tmd td tels tch =>
          rw [overlapsNode] at hov
          simp only [QTree.x, QTree.y, QTree.width, QTree.height] at hov
          simp only [addSeq, hov, Bool.false_eq_true, if_false, Option.some.injEq,
            Prod.mk.injEq] at h
          exact ⟨h.1.symm, h.2.symm⟩

theorem AddElement_some_spec {fuel : Nat} {e : TreeElement} {s : TreeState} {b : Bool}
    {s' : TreeState} (h : AddElement fuel e s = some (b, s')) :
    AddSpec [e] [] s.tree (s.elementsParents.ensureEntry e.id) s'.tree s'.elementsParents ∧
      b = overlapsNode e s.tree := by
  simp only [AddElement] at h
  cases hrun : addSeq fuel [e] [] s.tree (s.elementsParents.ensureEntry e.id) with
  | none => rw [hrun] at h; exact Option.noConfusion h
  | some r =>
      rw [hrun] at h
      simp only [Option.some.injEq, Prod.mk.injEq] at h
      obtain ⟨hb, hs⟩ := h
      have hspec := addSeq_spec fuel [e] [] s.tree (s.elementsParents.ensureEntry e.id)
        r.1 r.2 (by rw [hrun])
      constructor
      · rw [← hs]
        exact hspec
      · subst hb
        cases hovb : overlapsNode e s.tree with
        | false =>
            obtain ⟨hteq, hoeq⟩ := addSeq_single_notOverlap hovb (by rw [hrun])
            have : r.2.getEntry e.id = (s.elementsParents.ensureEntry e.id).getEntry e.id := by
              rw [hoeq, getEntry_ensureEntry]
            simp [this]
        | true =>
            obtain ⟨h1, h2, h3, h4, h5, h6, h7, h8⟩ := hspec
            obtain ⟨d, hd⟩ := h1 e.id
            have hcnt := h3 e.id []
            simp only [List.nil_append] at hcnt
            rw [elemCntId_nil, elemCntId_nil, h8] at hcnt
            rw [overlapsNode] at hovb
            rw [List.filter_cons, hovb] at hcnt
            simp only [if_pos, List.filter_nil, List.countP_append, List.countP_cons,
              List.countP_nil, decide_eq_true_eq, if_pos rfl] at hcnt
            have hdne : d ≠ [] := by
              intro hdnil
              rw [hdnil, List.append_nil] at hd
              rw [hd] at hcnt
              omega
            have hlen : ((s.elementsParents.ensureEntry e.id).getEntry e.id).length <
                (r.2.getEntry e.id).length := by
              rw [hd, List.length_append]
              have := List.length_pos.mpr hdne
              omega
            simp [hlen]

end QuadTree

namespace QuadTree

open QTree Owner

theorem AddElement_run {fuel : Nat} {e : TreeElement} {s : TreeState} {b : Bool}
    {s' : TreeState} (h : AddElement fuel e s = some (b, s')) :
    addSeq fuel [e] [] s.tree (s.elementsParents.ensureEntry e.id) =
      some (s'.tree, s'.elementsParents) := by
  simp only [AddElement] at h
  cases hrun : addSeq fuel [e] [] s.tree (s.elementsParents.ensureEntry e.id) with
  | none => rw [hrun] at h; exact Option.noConfusion h
  | some r =>
      rw [hrun] at h
      simp only [Option.some.injEq, Prod.mk.injEq] at h
      rw [← h.2]

theorem AddElement_preserves {fuel : Nat} {e : TreeElement} {s : TreeState} {b : Bool}
    {s' : TreeState} {A : List TreeElement} (he : e ∈ A)
    (hI : Agree s ∧ RootMem s ∧ StoredFrom s A)
    (h : AddElement fuel e s = some (b, s')) :
    Agree s' ∧ RootMem s' ∧ StoredFrom s' A := by
  obtain ⟨hA, hR, hS⟩ := hI
  obtain ⟨⟨h1, h2, h3, h4, h5, h6, h7, h8⟩, hb⟩ := AddElement_some_spec h
  have hent0 : ∀ i, (s.elementsParents.ensureEntry e.id).getEntry i =
      s.elementsParents.getEntry i := fun i => getEntry_ensureEntry _ _ _
  refine ⟨?_, ?_, ?_⟩
  · intro i q
    have hc := h3 i q
    simp only [List.nil_append] at hc
    rw [hent0 i] at hc
    have := hA i q
    omega
  · intro i hne
    by_cases hchg : s'.elementsParents.getEntry i =
        (s.elementsParents.ensureEntry e.id).getEntry i
    · rw [hchg, hent0 i] at hne ⊢
      exact hR i hne
    · rcases h5 i hchg with ⟨v, hv, hvi⟩ | ⟨v, hv, hvi⟩
      · simp only [List.mem_singleton] at hv
        have hie : i = e.id := by rw [← hvi, hv]
        subst hie
        cases hovb : overlapsNode e s.tree with
        | false =>
            exfalso
            apply hchg
            obtain ⟨ht, ho⟩ := addSeq_single_notOverlap hovb (AddElement_run h)
            rw [ho, getEntry_ensureEntry]
        | true =>
            exact h6 e (List.mem_singleton_self e) (by rwa [overlapsNode] at hovb)
      · obtain ⟨q, hq⟩ := treeElems_to_cnt hv
        rw [hvi] at hq
        have hcount := hA i q
        have hpos : s.elementsParents.getEntry i ≠ [] := by
          intro hnil
          rw [hnil] at hcount
          simp only [List.count_nil] at hcount
          omega
        have hmem := hR i hpos
        obtain ⟨d, hd⟩ := h1 i
        rw [hd, hent0 i]
        exact List.mem_append_left _ hmem
  · intro v hv
    rcases h4 v hv with h' | h'
    · exact hS v h'
    · simp only [List.mem_singleton] at h'
      exact h' ▸ he

end QuadTree

namespace QuadTree

open QTree Owner

theorem countP_erase_of_mem {e : TreeElement} :
    ∀ {l : List TreeElement}, e ∈ l → ∀ (p : TreeElement → Bool),
      (l.erase e).countP p + (if p e then 1 else 0) = l.countP p := by
  intro l
  induction l with
  | nil => intro h; exact absurd h (List.not_mem_nil e)
  | cons a t ih =>
      intro h p
      by_cases hae : a = e
      · subst hae
        rw [List.erase_cons_head]
        rw [List.countP_cons]
      · have hne : ¬ (a == e) = true := by
          simp only [beq_iff_eq]
          exact hae
        rw [List.erase_cons_tail hne]
        have hmem : e ∈ t := by
          rcases List.mem_cons.mp h with h' | h'
          · exact absurd h'.symm hae
          · exact h'
        rw [List.countP_cons, List.countP_cons, ← ih hmem p]
        omega

theorem spliceRemove_count_self {e : TreeElement} {l : List TreeElement} (h : e ∈ l) :
    (spliceRemove e l).count e + 1 = l.count e := by
  rw [spliceRemove, if_pos h]
  have h1 := List.count_erase_self e l
  have h2 : 1 ≤ l.count e := List.count_pos_iff_mem.mpr h
  omega

theorem spliceRemove_countP {e : TreeElement} {l : List TreeElement} (h : e ∈ l)
    (p : TreeElement → Bool) :
    (spliceRemove e l).countP p + (if p e then 1 else 0) = l.countP p := by
  rw [spliceRemove, if_pos h]
  exact countP_erase_of_mem h p

theorem spliceRemove_subset {e v : TreeElement} {l : List TreeElement}
    (h : v ∈ spliceRemove e l) : v ∈ l := by
  rw [spliceRemove] at h
  by_cases hm : e ∈ l
  · rw [if_pos hm] at h
    exact List.mem_of_mem_erase h
  · rw [if_neg hm] at h
    exact List.dropLast_subset _ h

end QuadTree

namespace QuadTree

open QTree Owner

theorem removeAtPath_spec (e : TreeElement) :
    ∀ (q : NodePath) (t : QTree),
    ((1 ≤ elemCntVal t q e →
      elemCntVal (removeAtPath e q t) q e + 1 = elemCntVal t q e ∧
      ∀ i, elemCntId (removeAtPath e q t) q i + (if i = e.id then 1 else 0) =
        elemCntId t q i)) ∧
    (∀ q', q' ≠ q → (∀ v, elemCntVal (removeAtPath e q t) q' v = elemCntVal t q' v) ∧
      (∀ i, elemCntId (removeAtPath e q t) q' i = elemCntId t q' i)) ∧
    (∀ v, v ∈ treeElems (removeAtPath e q t) → v ∈ treeElems t) := by
  intro q
  induction q with
  | nil =>
      intro t
      cases t with
      | node tx ty tw th tme tmd td tels tch =>
          have hrm : removeAtPath e [] (QTree.node tx ty tw th tme tmd td tels tch) =
              QTree.node tx ty tw th tme tmd td (spliceRemove e tels) tch := rfl
          refine ⟨?_, ?_, ?_⟩
          · intro hpos
            rw [elemCntVal_nil] at hpos
            simp only [QTree.elements] at hpos
            have hmem : e ∈ tels := List.count_pos_iff_mem.mp (by omega)
            constructor
            · rw [hrm, elemCntVal_nil, elemCntVal_nil]
              simp only [QTree.elements]
              exact spliceRemove_count_self hmem
            · intro i
              rw [hrm, elemCntId_nil, elemCntId_nil]
              simp only [QTree.elements]
              have hcp := spliceRemove_countP hmem (fun v => decide (v.id = i))
              by_cases hie : i = e.id
              · subst hie
                simpa using hcp
              · have hne2 : ¬ (e.id = i) := fun hh => hie hh.symm
                simp only [hne2] at hcp
                simpa [hie] using hcp
          · intro q' hq'
            cases q' with
            | nil => exact absurd rfl hq'
            | cons k r =>
                rw [hrm]
                cases tch with
                | none =>
                    exact ⟨fun v => by rw [elemCntVal_none, elemCntVal_none],
                      fun i => by rw [elemCntId_none, elemCntId_none]⟩
                | some cc =>
                    obtain ⟨c0, c1, c2, c3⟩ := cc
                    rcases eq_or_ne k 0 with rfl | hk0
                    · exact ⟨fun v => by rw [elemCntVal_child0, elemCntVal_child0],
                        fun i => by rw [elemCntId_child0, elemCntId_child0]⟩
                    rcases eq_or_ne k 1 with rfl | hk1
                    · exact ⟨fun v => by rw [elemCntVal_child1, elemCntVal_child1],
                        fun i => by rw [elemCntId_child1, elemCntId_child1]⟩
                    rcases eq_or_ne k 2 with rfl | hk2
                    · exact ⟨fun v => by rw [elemCntVal_child2, elemCntVal_child2],
                        fun i => by rw [elemCntId_child2, elemCntId_child2]⟩
                    rcases eq_or_ne k 3 with rfl | hk3
                    · exact ⟨fun v => by rw [elemCntVal_child3, elemCntVal_child3],
                        fun i => by rw [elemCntId_child3, elemCntId_child3]⟩
                    · have hk4 : 4 ≤ k := by omega
                      exact ⟨fun v => by
                          rw [elemCntVal_ge4 _ _ _ _ hk4, elemCntVal_ge4 _ _ _ _ hk4],
                        fun i => by rw [elemCntId_ge4 _ _ _ _ hk4, elemCntId_ge4 _ _ _ _ hk4]⟩
          · intro v hv
            rw [hrm] at hv
            cases tch with
            | none =>
                rw [treeElems_node_none] at hv ⊢
                exact spliceRemove_subset hv
            | some cc =>
                obtain ⟨c0, c1, c2, c3⟩ := cc
                rw [treeElems_node_some] at hv ⊢
                rcases List.mem_append.mp hv with h | h
                · exact List.mem_append_left _ (spliceRemove_subset h)
                · exact List.mem_append_right _ h
  | cons j qr ih =>
      intro t
      cases t with
      | node tx ty tw th tme tmd td tels tch =>
          cases tch with
          | none =>
              have hrm : removeAtPath e (j :: qr) (QTree.node tx ty tw th tme tmd td tels none) =
                  QTree.node tx ty tw th tme tmd td tels none := by
                simp [removeAtPath]
              rw [hrm]
              refine ⟨?_, fun q' _ => ⟨fun v => rfl, fun i => rfl⟩, fun v hv => hv⟩
              intro hpos
              rw [elemCntVal_none] at hpos
              omega
          | some cc =>
              obtain ⟨c0, c1, c2, c3⟩ := cc
              rcases eq_or_ne j 0 with rfl | hj0
              · have hrm : removeAtPath e (0 :: qr)
                    (QTree.node tx ty tw th tme tmd td tels (some (c0, c1, c2, c3))) =
                    QTree.node tx ty tw th tme tmd td tels
                      (some (removeAtPath e qr c0, c1, c2, c3)) := by
                  simp [removeAtPath]
                obtain ⟨ih1, ih2, ih3⟩ := ih c0
                rw [hrm]
                refine ⟨?_, ?_, ?_⟩
                · intro hpos
                  rw [elemCntVal_child0] at hpos
                  obtain ⟨ha, hb⟩ := ih1 hpos
                  exact ⟨by rw [elemCntVal_child0, elemCntVal_child0]; exact ha,
                    fun i => by rw [elemCntId_child0, elemCntId_child0]; exact hb i⟩
                · intro q' hq'
                  cases q' with
                  | nil =>
                      exact ⟨fun v => by
                          rw [elemCntVal_nil, elemCntVal_nil]
                          simp only [QTree.elements],
                        fun i => by
                          rw [elemCntId_nil, elemCntId_nil]
                          simp only [QTree.elements]⟩
                  | cons k r =>
                      rcases eq_or_ne k 0 with rfl | hk0
                      · have hrr : r ≠ qr := by
                          intro hh
                          exact hq' (by rw [hh])
                        obtain ⟨ha, hb⟩ := ih2 r hrr
                        exact ⟨fun v => by rw [elemCntVal_child0, elemCntVal_child0]; exact ha v,
                          fun i => by rw [elemCntId_child0, elemCntId_child0]; exact hb i⟩
                      rcases eq_or_ne k 1 with rfl | hk1
                      · exact ⟨fun v => by rw [elemCntVal_child1, elemCntVal_child1],
                          fun i => by rw [elemCntId_child1, elemCntId_child1]⟩
                      rcases eq_or_ne k 2 with rfl | hk2
                      · exact ⟨fun v => by rw [elemCntVal_child2, elemCntVal_child2],
                          fun i => by rw [elemCntId_child2, elemCntId_child2]⟩
                      rcases eq_or_ne k 3 with rfl | hk3
                      · exact ⟨fun v => by rw [elemCntVal_child3, elemCntVal_child3],
                          fun i => by rw [elemCntId_child3, elemCntId_child3]⟩
                      · have hk4 : 4 ≤ k := by omega
                        exact ⟨fun v => by
                            rw [elemCntVal_ge4 _ _ _ _ hk4, elemCntVal_ge4 _ _ _ _ hk4],
                          fun i => by rw [elemCntId_ge4 _ _ _ _ hk4, elemCntId_ge4 _ _ _ _ hk4]⟩
                · intro v hv
                  rw [treeElems_node_some] at hv ⊢
                  rcases List.mem_append.mp hv with h | h
                  · exact List.mem_append_left _ h
                  · rcases List.mem_append.mp h with h012 | h3
                    · rcases List.mem_append.mp h012 with h01 | h2
                      · rcases List.mem_append.mp h01 with h0 | h1
                        · exact List.mem_append_right _ (List.mem_append_left _ (List.mem_append_left _ (List.mem_append_left _ (ih3 v h0))))
                        · exact List.mem_append_right _ (List.mem_append_left _ (List.mem_append_left _ (List.mem_append_right _ (h1))))
                      · exact List.mem_append_right _ (List.mem_append_left _ (List.mem_append_right _ (h2)))
                    · exact List.mem_append_right _ (List.mem_append_right _ (h3))
              rcases eq_or_ne j 1 with rfl | hj1
              · have hrm : removeAtPath e (1 :: qr)
                    (QTree.node tx ty tw th tme tmd td tels (some (c0, c1, c2, c3))) =
                    QTree.node tx ty tw th tme tmd td tels
                      (some (c0, removeAtPath e qr c1, c2, c3)) := by
                  simp [removeAtPath]
                obtain ⟨ih1, ih2, ih3⟩ := ih c1
                rw [hrm]
                refine ⟨?_, ?_, ?_⟩
                · intro hpos
                  rw [elemCntVal_child1] at hpos
                  obtain ⟨ha, hb⟩ := ih1 hpos
                  exact ⟨by rw [elemCntVal_child1, elemCntVal_child1]; exact ha,
                    fun i => by rw [elemCntId_child1, elemCntId_child1]; exact hb i⟩
                · intro q' hq'
                  cases q' with
                  | nil =>
                      exact ⟨fun v => by
                          rw [elemCntVal_nil, elemCntVal_nil]
                          simp only [QTree.elements],
                        fun i => by
                          rw [elemCntId_nil, elemCntId_nil]
                          simp only [QTree.elements]⟩
                  | cons k r =>
                      rcases eq_or_ne k 0 with rfl | hk0
                      · exact ⟨fun v => by rw [elemCntVal_child0, elemCntVal_child0],
                          fun i => by rw [elemCntId_child0, elemCntId_child0]⟩
                      rcases eq_or_ne k 1 with rfl | hk1
                      · have hrr : r ≠ qr := by
                          intro hh
                          exact hq' (by rw [hh])
                        obtain ⟨ha, hb⟩ := ih2 r hrr
                        exact ⟨fun v => by rw [elemCntVal_child1, elemCntVal_child1]; exact ha v,
                          fun i => by rw [elemCntId_child1, elemCntId_child1]; exact hb i⟩
                      rcases eq_or_ne k 2 with rfl | hk2
                      · exact ⟨fun v => by rw [elemCntVal_child2, elemCntVal_child2],
                          fun i => by rw [elemCntId_child2, elemCntId_child2]⟩
                      rcases eq_or_ne k 3 with rfl | hk3
                      · exact ⟨fun v => by rw [elemCntVal_child3, elemCntVal_child3],
                          fun i => by rw [elemCntId_child3, elemCntId_child3]⟩
                      · have hk4 : 4 ≤ k := by omega
                        exact ⟨fun v => by
                            rw [elemCntVal_ge4 _ _ _ _ hk4, elemCntVal_ge4 _ _ _ _ hk4],
                          fun i => by rw [elemCntId_ge4 _ _ _ _ hk4, elemCntId_ge4 _ _ _ _ hk4]⟩
                · intro v hv
                  rw [treeElems_node_some] at hv ⊢
                  rcases List.mem_append.mp hv with h | h
                  · exact List.mem_append_left _ h
                  · rcases List.mem_append.mp h with h012 | h3
                    · rcases List.mem_append.mp h012 with h01 | h2
                      · rcases List.mem_append.mp h01 with h0 | h1
                        · exact List.mem_append_right _ (List.mem_append_left _ (List.mem_append_left _ (List.mem_append_left _ (h0))))
                        · exact List.mem_append_right _ (List.mem_append_left _ (List.mem_append_left _ (List.mem_append_right _ (ih3 v h1))))
                      · exact List.mem_append_right _ (List.mem_append_left _ (List.mem_append_right _ (h2)))
                    · exact List.mem_append_right _ (List.mem_append_right _ (h3))
              rcases eq_or_ne j 2 with rfl | hj2
              · have hrm : removeAtPath e (2 :: qr)
                    (QTree.node tx ty tw th tme tmd td tels (some (c0, c1, c2, c3))) =
                    QTree.node tx ty tw th tme tmd td tels
                      (some (c0, c1, removeAtPath e qr c2, c3)) := by
                  simp [removeAtPath]
                obtain ⟨ih1, ih2, ih3⟩ := ih c2
                rw [hrm]
                refine ⟨?_, ?_, ?_⟩
                · intro hpos
                  rw [elemCntVal_child2] at hpos
                  obtain ⟨ha, hb⟩ := ih1 hpos
                  exact ⟨by rw [elemCntVal_child2, elemCntVal_child2]; exact ha,
                    fun i => by rw [elemCntId_child2, elemCntId_child2]; exact hb i⟩
                · intro q' hq'
                  cases q' with
                  | nil =>
                      exact ⟨fun v => by
                          rw [elemCntVal_nil, elemCntVal_nil]
                          simp only [QTree.elements],
                        fun i => by
                          rw [elemCntId_nil, elemCntId_nil]
                          simp only [QTree.elements]⟩
                  | cons k r =>
                      rcases eq_or_ne k 0 with rfl | hk0
                      · exact ⟨fun v => by rw [elemCntVal_child0, elemCntVal_child0],
                          fun i => by rw [elemCntId_child0, elemCntId_child0]⟩
                      rcases eq_or_ne k 1 with rfl | hk1
                      · exact ⟨fun v => by rw [elemCntVal_child1, elemCntVal_child1],
                          fun i => by rw [elemCntId_child1, elemCntId_child1]⟩
                      rcases eq_or_ne k 2 with rfl | hk2
                      · have hrr : r ≠ qr := by
                          intro hh
                          exact hq' (by rw [hh])
                        obtain ⟨ha, hb⟩ := ih2 r hrr
                        exact ⟨fun v => by rw [elemCntVal_child2, elemCntVal_child2]; exact ha v,
                          fun i => by rw [elemCntId_child2, elemCntId_child2]; exact hb i⟩
                      rcases eq_or_ne k 3 with rfl | hk3
                      · exact ⟨fun v => by rw [elemCntVal_child3, elemCntVal_child3],
                          fun i => by rw [elemCntId_child3, elemCntId_child3]⟩
                      · have hk4 : 4 ≤ k := by omega
                        exact ⟨fun v => by
                            rw [elemCntVal_ge4 _ _ _ _ hk4, elemCntVal_ge4 _ _ _ _ hk4],
                          fun i => by rw [elemCntId_ge4 _ _ _ _ hk4, elemCntId_ge4 _ _ _ _ hk4]⟩
                · intro v hv
                  rw [treeElems_node_some] at hv ⊢
                  rcases List.mem_append.mp hv with h | h
                  · exact List.mem_append_left _ h
                  · rcases List.mem_append.mp h with h012 | h3
                    · rcases List.mem_append.mp h012 with h01 | h2
                      · rcases List.mem_append.mp h01 with h0 | h1
                        · exact List.mem_append_right _ (List.mem_append_left _ (List.mem_append_left _ (List.mem_append_left _ (h0))))
                        · exact List.mem_append_right _ (List.mem_append_left _ (List.mem_append_left _ (List.mem_append_right _ (h1))))
                      · exact List.mem_append_right _ (List.mem_append_left _ (List.mem_append_right _ (ih3 v h2)))
                    · exact List.mem_append_right _ (List.mem_append_right _ (h3))
              rcases eq_or_ne j 3 with rfl | hj3
              · have hrm : removeAtPath e (3 :: qr)
                    (QTree.node tx ty tw th tme tmd td tels (some (c0, c1, c2, c3))) =
                    QTree.node tx ty tw th tme tmd td tels
                      (some (c0, c1, c2, removeAtPath e qr c3)) := by
                  simp [removeAtPath]
                obtain ⟨ih1, ih2, ih3⟩ := ih c3
                rw [hrm]
                refine ⟨?_, ?_, ?_⟩
                · intro hpos
                  rw [elemCntVal_child3] at hpos
                  obtain ⟨ha, hb⟩ := ih1 hpos
                  exact ⟨by rw [elemCntVal_child3, elemCntVal_child3]; exact ha,
                    fun i => by rw [elemCntId_child3, elemCntId_child3]; exact hb i⟩
                · intro q' hq'
                  cases q' with
                  | nil =>
                      exact ⟨fun v => by
                          rw [elemCntVal_nil, elemCntVal_nil]
                          simp only [QTree.elements],
                        fun i => by
                          rw [elemCntId_nil, elemCntId_nil]
                          simp only [QTree.elements]⟩
                  | cons k r =>
                      rcases eq_or_ne k 0 with rfl | hk0
                      · exact ⟨fun v => by rw [elemCntVal_child0, elemCntVal_child0],
                          fun i => by rw [elemCntId_child0, elemCntId_child0]⟩
                      rcases eq_or_ne k 1 with rfl | hk1
                      · exact ⟨fun v => by rw [elemCntVal_child1, elemCntVal_child1],
                          fun i => by rw [elemCntId_child1, elemCntId_child1]⟩
                      rcases eq_or_ne k 2 with rfl | hk2
                      · exact ⟨fun v => by rw [elemCntVal_child2, elemCntVal_child2],
                          fun i => by rw [elemCntId_child2, elemCntId_child2]⟩
                      rcases eq_or_ne k 3 with rfl | hk3
                      · have hrr : r ≠ qr := by
                          intro hh
                          exact hq' (by rw [hh])
                        obtain ⟨ha, hb⟩ := ih2 r hrr
                        exact ⟨fun v => by rw [elemCntVal_child3, elemCntVal_child3]; exact ha v,
                          fun i => by rw [elemCntId_child3, elemCntId_child3]; exact hb i⟩
                      · have hk4 : 4 ≤ k := by omega
                        exact ⟨fun v => by
                            rw [elemCntVal_ge4 _ _ _ _ hk4, elemCntVal_ge4 _ _ _ _ hk4],
                          fun i => by rw [elemCntId_ge4 _ _ _ _ hk4, elemCntId_ge4 _ _ _ _ hk4]⟩
                · intro v hv
                  rw [treeElems_node_some] at hv ⊢
                  rcases List.mem_append.mp hv with h | h
                  · exact List.mem_append_left _ h
                  · rcases List.mem_append.mp h with h012 | h3
                    · rcases List.mem_append.mp h012 with h01 | h2
                      · rcases List.mem_append.mp h01 with h0 | h1
                        · exact List.mem_append_right _ (List.mem_append_left _ (List.mem_append_left _ (List.mem_append_left _ (h0))))
                        · exact List.mem_append_right _ (List.mem_append_left _ (List.mem_append_left _ (List.mem_append_right _ (h1))))
                      · exact List.mem_append_right _ (List.mem_append_left _ (List.mem_append_right _ (h2)))
                    · exact List.mem_append_right _ (List.mem_append_right _ (ih3 v h3))
              · have hj4 : 4 ≤ j := by omega
                have hrm : removeAtPath e (j :: qr)
                    (QTree.node tx ty tw th tme tmd td tels (some (c0, c1, c2, c3))) =
                    QTree.node tx ty tw th tme tmd td tels (some (c0, c1, c2, c3)) := by
                  rcases j with _ | _ | _ | _ | j
                  · omega
                  · omega
                  · omega
                  · omega
                  · simp [removeAtPath]
                rw [hrm]
                refine ⟨?_, fun q' _ => ⟨fun v => rfl, fun i => rfl⟩, fun v hv => hv⟩
                intro hpos
                rw [elemCntVal_ge4 _ _ _ _ hj4] at hpos
                omega

end QuadTree

namespace QuadTree

open QTree Owner

theorem countP_id_eq_count {e : TreeElement} :
    ∀ {l : List TreeElement}, (∀ v ∈ l, v.id = e.id → v = e) →
      l.countP (fun v => decide (v.id = e.id)) = l.count e := by
  intro l
  induction l with
  | nil => intro _; rfl
  | cons a t ih =>
      intro h
      have ht : ∀ v ∈ t, v.id = e.id → v = e := fun v hv => h v (List.mem_cons_of_mem _ hv)
      rw [List.countP_cons, List.count_cons, ih ht]
      by_cases ha : a.id = e.id
      · have hae : a = e := h a (List.mem_cons_self _ _) ha
        subst hae
        simp
      · have hane : ¬ (a = e) := fun hh => ha (hh ▸ rfl)
        simp [ha, hane]

theorem cntId_eq_cntVal {e : TreeElement} :
    ∀ (t : QTree), (∀ v ∈ treeElems t, v.id = e.id → v = e) →
      ∀ q, elemCntId t q e.id = elemCntVal t q e := by
  intro t
  induction t using treeElems.induct with
  | case1 x y w hh me md d els =>
      intro hcoh q
      cases q with
      | nil =>
          rw [elemCntId_nil, elemCntVal_nil]
          simp only [QTree.elements]
          exact countP_id_eq_count (by rwa [treeElems_node_none] at hcoh)
      | cons k r => rw [elemCntId_none, elemCntVal_none]
  | case2 x y w hh me md d els c0 c1 c2 c3 ih0 ih1 ih2 ih3 =>
      intro hcoh q
      have hc : ∀ (cj : QTree), (∀ v ∈ treeElems cj,
          v ∈ treeElems (QTree.node x y w hh me md d els (some (c0, c1, c2, c3)))) →
          ∀ v ∈ treeElems cj, v.id = e.id → v = e :=
        fun cj hlift v hv => hcoh v (hlift v hv)
      cases q with
      | nil =>
          rw [elemCntId_nil, elemCntVal_nil]
          simp only [QTree.elements]
          refine countP_id_eq_count ?_
          intro v hv
          exact hcoh v (by rw [treeElems_node_some]; exact List.mem_append_left _ hv)
      | cons k r =>
          rcases eq_or_ne k 0 with rfl | hk0
          · rw [elemCntId_child0, elemCntVal_child0]
            exact ih0 (hc c0 (fun v hv => mem_child_treeElems _ _ _ _ _ _ _ _ (Or.inl hv))) r
          rcases eq_or_ne k 1 with rfl | hk1
          · rw [elemCntId_child1, elemCntVal_child1]
            exact ih1 (hc c1 (fun v hv =>
              mem_child_treeElems _ _ _ _ _ _ _ _ (Or.inr (Or.inl hv)))) r
          rcases eq_or_ne k 2 with rfl | hk2
          · rw [elemCntId_child2, elemCntVal_child2]
            exact ih2 (hc c2 (fun v hv =>
              mem_child_treeElems _ _ _ _ _ _ _ _ (Or.inr (Or.inr (Or.inl hv))))) r
          rcases eq_or_ne k 3 with rfl | hk3
          · rw [elemCntId_child3, elemCntVal_child3]
            exact ih3 (hc c3 (fun v hv =>
              mem_child_treeElems _ _ _ _ _ _ _ _ (Or.inr (Or.inr (Or.inr hv))))) r
          · have hk4 : 4 ≤ k := by omega
            rw [elemCntId_ge4 _ _ _ _ hk4, elemCntVal_ge4 _ _ _ _ hk4]

theorem removeLoop_spec (e : TreeElement) :
    ∀ (L : List NodePath) (t : QTree),
    (∀ q, L.count q = elemCntVal t q e) →
    ((∀ q, elemCntVal (L.foldl (fun tt q => removeAtPath e q tt) t) q e = 0) ∧
     (∀ q i, elemCntId (L.foldl (fun tt q => removeAtPath e q tt) t) q i +
        (if i = e.id then L.count q else 0) = elemCntId t q i) ∧
     (∀ v, v ∈ treeElems (L.foldl (fun tt q => removeAtPath e q tt) t) → v ∈ treeElems t)) := by
  intro L
  induction L with
  | nil =>
      intro t hcnt
      refine ⟨fun q => (hcnt q).symm, fun q i => by simp, fun v hv => hv⟩
  | cons q0 L' ih =>
      intro t hcnt
      have hpos : 1 ≤ elemCntVal t q0 e := by
        have hc := hcnt q0
        simp [List.count_cons] at hc
        omega
      obtain ⟨hs1, hs2, hs3⟩ := removeAtPath_spec e q0 t
      obtain ⟨hval0, hid0⟩ := hs1 hpos
      have hcnt' : ∀ q, L'.count q = elemCntVal (removeAtPath e q0 t) q e := by
        intro q
        by_cases hq : q = q0
        · have hc := hcnt q
          subst hq
          simp [List.count_cons] at hc
          omega
        · rw [(hs2 q hq).1 e]
          have hc := hcnt q
          simp [List.count_cons, hq] at hc
          omega
      obtain ⟨ih1, ih2, ih3⟩ := ih (removeAtPath e q0 t) hcnt'
      rw [List.foldl_cons]
      refine ⟨ih1, ?_, fun v hv => hs3 v (ih3 v hv)⟩
      intro q i
      have h2 := ih2 q i
      by_cases hie : i = e.id
      · subst hie
        by_cases hq : q = q0
        · have hid := hid0 e.id
          subst hq
          simp only [List.count_cons] at h2 hid ⊢
          simp at h2 hid ⊢
          omega
        · have hu := (hs2 q hq).2 e.id
          simp only [List.count_cons] at h2 ⊢
          simp [hq, Ne.symm hq] at h2 ⊢
          omega
      · simp only [if_neg hie] at h2 ⊢
        by_cases hq : q = q0
        · subst hq
          have hid := hid0 i
          simp only [if_neg hie] at hid
          omega
        · have := (hs2 q hq).2 i
          omega

end QuadTree

namespace QuadTree

open QTree Owner

theorem RemoveElement_spec {e : TreeElement} {s : TreeState}
    (hA : Agree s) (hcoh : ∀ v ∈ treeElems s.tree, v.id = e.id → v = e) :
    Agree (RemoveElement e s).2 ∧
    (RootMem s → RootMem (RemoveElement e s).2) ∧
    (∀ A, StoredFrom s A → StoredFrom (RemoveElement e s).2 A) ∧
    ((RemoveElement e s).1 = true →
        (RemoveElement e s).2.elementsParents.lookupEntry e.id = none ∧
        ∀ q, elemCntId (RemoveElement e s).2.tree q e.id = 0) ∧
    ((RemoveElement e s).1 = false → (RemoveElement e s).2 = s) := by
  by_cases hHas : HasElement e s = true
  · have hpre : ∀ q, ((s.elementsParents.getEntry e.id).reverse).count q =
        elemCntVal s.tree q e := by
      intro q
      rw [List.count_reverse, hA e.id q]
      exact cntId_eq_cntVal s.tree hcoh q
    obtain ⟨hz, hcnt2, hsub⟩ := removeLoop_spec e _ s.tree hpre
    have hRE : RemoveElement e s = (true,
        ⟨(s.elementsParents.getEntry e.id).reverse.foldl (fun t q => removeAtPath e q t) s.tree,
          s.elementsParents.eraseEntry e.id⟩) := by
      simp [RemoveElement, hHas]
    rw [hRE]
    have hcoh2 : ∀ v ∈ treeElems ((s.elementsParents.getEntry e.id).reverse.foldl
        (fun t q => removeAtPath e q t) s.tree), v.id = e.id → v = e :=
      fun v hv => hcoh v (hsub v hv)
    have hzero : ∀ q, elemCntId ((s.elementsParents.getEntry e.id).reverse.foldl
        (fun t q => removeAtPath e q t) s.tree) q e.id = 0 := by
      intro q
      rw [cntId_eq_cntVal _ hcoh2 q]
      exact hz q
    refine ⟨?_, ?_, ?_, ?_, ?_⟩
    · intro i q
      by_cases hie : i = e.id
      · subst hie
        have hlk : (s.elementsParents.eraseEntry e.id).getEntry e.id = [] := by
          rw [getEntry, lookupEntry_eraseEntry_self]
          rfl
        simp only [hlk, List.count_nil]
        exact (hzero q).symm
      · have hlk : (s.elementsParents.eraseEntry e.id).getEntry i =
            s.elementsParents.getEntry i := by
          rw [getEntry, lookupEntry_eraseEntry_other _ _ _ hie, getEntry]
        simp only [hlk]
        have hc := hcnt2 q i
        simp only [if_neg hie] at hc
        rw [hA i q]
        omega
    · intro hR i hne
      by_cases hie : i = e.id
      · subst hie
        have hlk : (s.elementsParents.eraseEntry e.id).getEntry e.id = [] := by
          rw [getEntry, lookupEntry_eraseEntry_self]
          rfl
        simp only [hlk] at hne
        exact absurd rfl hne
      · have hlk : (s.elementsParents.eraseEntry e.id).getEntry i =
            s.elementsParents.getEntry i := by
          rw [getEntry, lookupEntry_eraseEntry_other _ _ _ hie, getEntry]
        simp only [hlk] at hne ⊢
        exact hR i hne
    · intro A hS v hv
      exact hS v (hsub v hv)
    · intro _
      exact ⟨lookupEntry_eraseEntry_self _ _, hzero⟩
    · intro h
      exact Bool.noConfusion h
  · have hRE : RemoveElement e s = (false, s) := by
      simp [RemoveElement, hHas]
    rw [hRE]
    exact ⟨hA, fun hR => hR, fun A hS => hS, fun h => Bool.noConfusion h, fun _ => rfl⟩

end QuadTree

namespace QuadTree

open QTree Owner

theorem Inv_fresh (x y w h : ℚ) (me : Nat) (md : Int) (A : List TreeElement) :
    Agree (freshState x y w h me md) ∧ RootMem (freshState x y w h me md) ∧
      StoredFrom (freshState x y w h me md) A := by
  refine ⟨?_, ?_, ?_⟩
  · intro i q
    show (Owner.getEntry [] i).count q = elemCntId (QTree.node x y w h me md 0 [] none) q i
    rw [elemCntId_fresh]
    simp [Owner.getEntry, Owner.lookupEntry]
  · intro i hne
    exact absurd (show Owner.getEntry [] i = [] by simp [Owner.getEntry, Owner.lookupEntry]) hne
  · intro v hv
    rw [show (freshState x y w h me md).tree = QTree.node x y w h me md 0 [] none from rfl,
      treeElems_node_none] at hv
    exact absurd hv (List.not_mem_nil v)

theorem runOp_preserves {fuel : Nat} {s : TreeState} {op : TreeOp} {s' : TreeState}
    {A : List TreeElement} (hco : IdCoherent A) (hopA : op.elem ∈ A)
    (hI : Agree s ∧ RootMem s ∧ StoredFrom s A)
    (h : runOp fuel s op = some s') : Agree s' ∧ RootMem s' ∧ StoredFrom s' A := by
  have hcohs : ∀ (e : TreeElement), e ∈ A → ∀ v ∈ treeElems s.tree, v.id = e.id → v = e := by
    intro e heA v hv hvi
    exact hco v (hI.2.2 v hv) e heA hvi
  cases op with
  | add e =>
      simp only [runOp, Option.map_eq_some'] at h
      obtain ⟨⟨b, s''⟩, hAdd, hs⟩ := h
      rw [← hs]
      exact AddElement_preserves (by simpa [TreeOp.elem] using hopA) hI hAdd
  | remove e =>
      simp only [runOp, Option.some.injEq] at h
      obtain ⟨hA2, hR2, hS2, _, _⟩ :=
        RemoveElement_spec hI.1 (hcohs e (by simpa [TreeOp.elem] using hopA))
      rw [← h]
      exact ⟨hA2, hR2 hI.2.1, hS2 A hI.2.2⟩
  | update e =>
      simp only [runOp, UpdateElement, Option.map_eq_some'] at h
      obtain ⟨⟨b, s''⟩, hUpd, hs⟩ := h
      obtain ⟨hA2, hR2, hS2, _, _⟩ :=
        RemoveElement_spec hI.1 (hcohs e (by simpa [TreeOp.elem] using hopA))
      have hI1 : Agree (RemoveElement e s).2 ∧ RootMem (RemoveElement e s).2 ∧
          StoredFrom (RemoveElement e s).2 A := ⟨hA2, hR2 hI.2.1, hS2 A hI.2.2⟩
      rw [← hs]
      cases hrem : RemoveElement e s with
      | mk b1 s1 =>
          rw [hrem] at hUpd hI1
          cases b1 with
          | true =>
              simp only at hUpd
              exact AddElement_preserves (by simpa [TreeOp.elem] using hopA) hI1 hUpd
          | false =>
              simp only [Option.some.injEq, Prod.mk.injEq] at hUpd
              rw [← hUpd.2]
              exact hI1
  
theorem runOps_preserves {fuel : Nat} {A : List TreeElement} (hco : IdCoherent A) :
    ∀ (ops : List TreeOp) (s s' : TreeState), (∀ op ∈ ops, op.elem ∈ A) →
    (Agree s ∧ RootMem s ∧ StoredFrom s A) →
    runOps fuel s ops = some s' → Agree s' ∧ RootMem s' ∧ StoredFrom s' A := by
  intro ops
  induction ops with
  | nil =>
      intro s s' _ hI h
      simp only [runOps, Option.some.injEq] at h
      exact h ▸ hI
  | cons op ops ih =>
      intro s s' hmem hI h
      simp only [runOps] at h
      cases hstep : runOp fuel s op with
      | none => rw [hstep] at h; exact Option.noConfusion h
      | some s1 =>
          rw [hstep] at h
          exact ih s1 s' (fun o ho => hmem o (List.mem_cons_of_mem _ ho))
            (runOp_preserves hco (hmem op (List.mem_cons_self _ _)) hI hstep) h

end QuadTree

namespace QuadTree

open QTree Owner

theorem point_IsInsideRect_iff (i : Nat) (px py x y w h : ℚ) :
    (TreeElement.mk i (ElemGeom.point px py)).IsInsideRect x y w h = true ↔
      (x ≤ px ∧ y ≤ py ∧ px < x + w ∧ py < y + h) := by
  simp [TreeElement.IsInsideRect, ge_iff_le, and_assoc]

/-- C8: the point containment predicate is half-open on both axes: whenever a
point element lies in the union of two adjacent rectangles that share a full
edge (side by side, or stacked), it is inside exactly one of the two — never
both and never neither. -/
theorem pointPredicate_halfOpen_C8 (i : Nat) (px py : ℚ) :
    (∀ x y w1 w2 h : ℚ,
      (TreeElement.mk i (ElemGeom.point px py)).IsInsideRect x y (w1 + w2) h = true →
      Xor' ((TreeElement.mk i (ElemGeom.point px py)).IsInsideRect x y w1 h = true)
        ((TreeElement.mk i (ElemGeom.point px py)).IsInsideRect (x + w1) y w2 h = true)) ∧
    (∀ x y w h1 h2 : ℚ,
      (TreeElement.mk i (ElemGeom.point px py)).IsInsideRect x y w (h1 + h2) = true →
      Xor' ((TreeElement.mk i (ElemGeom.point px py)).IsInsideRect x y w h1 = true)
        ((TreeElement.mk i (ElemGeom.point px py)).IsInsideRect x (y + h1) w h2 = true)) := by
  constructor
  · intro x y w1 w2 h hin
    rw [point_IsInsideRect_iff] at hin
    obtain ⟨h1, h2, h3, h4⟩ := hin
    rw [Xor', point_IsInsideRect_iff, point_IsInsideRect_iff]
    rcases lt_or_le px (x + w1) with hx | hx
    · exact Or.inl ⟨⟨h1, h2, hx, h4⟩, fun hc => absurd hc.1 (not_le.mpr hx)⟩
    · exact Or.inr ⟨⟨hx, h2, by linarith, h4⟩, fun hc => absurd hc.2.2.1 (not_lt.mpr hx)⟩
  · intro x y w h1 h2 hin
    rw [point_IsInsideRect_iff] at hin
    obtain ⟨ha, hb, hc, hd⟩ := hin
    rw [Xor', point_IsInsideRect_iff, point_IsInsideRect_iff]
    rcases lt_or_le py (y + h1) with hy | hy
    · exact Or.inl ⟨⟨ha, hb, hc, hy⟩, fun hk => absurd hk.2.1 (not_le.mpr hy)⟩
    · exact Or.inr ⟨⟨ha, hy, hc, by linarith⟩, fun hk => absurd hk.2.2.2 (not_lt.mpr hy)⟩

/-- Witness for C8 at a concrete point and rectangle pair. -/
theorem pointPredicate_halfOpen_C8_witness :
    Xor' ((TreeElement.mk 1 (ElemGeom.point 50 10)).IsInsideRect 0 0 50 100 = true)
      ((TreeElement.mk 1 (ElemGeom.point 50 10)).IsInsideRect (0 + 50) 0 50 100 = true) :=
  (pointPredicate_halfOpen_C8 1 50 10).1 0 0 50 50 100 (by with_unfolding_all decide)

/-- C9: the circle containment predicate holds iff the squared distance from
the circle's center to the clamp of the center into the rectangle's span is at
most `r²`; tangency (equality) counts as overlap, unlike the strict
rectangle–rectangle test, which rejects a rectangle that only touches an
edge. -/
theorem circlePredicate_clamp_C9 (i : Nat) (cx cy r x y w h : ℚ)
    (hw : 0 ≤ w) (hh : 0 ≤ h) :
    ((TreeElement.mk i (ElemGeom.circle cx cy r)).IsInsideRect x y w h = true ↔
      (cx - max x (min cx (x + w))) ^ 2 + (cy - max y (min cy (y + h))) ^ 2 ≤ r ^ 2) ∧
    ((cx - max x (min cx (x + w))) ^ 2 + (cy - max y (min cy (y + h))) ^ 2 = r ^ 2 →
      (TreeElement.mk i (ElemGeom.circle cx cy r)).IsInsideRect x y w h = true) ∧
    (∀ (j : Nat) (ey ew eh : ℚ),
      (TreeElement.mk j (ElemGeom.rect (x + w) ey ew eh)).IsInsideRect x y w h = false) := by
  have hclx : (if cx < x then x else if cx > x + w then x + w else cx) =
      max x (min cx (x + w)) := by
    rcases lt_or_le cx x with h1 | h1
    · rw [if_pos h1, min_eq_left (by linarith), max_eq_left (le_of_lt h1)]
    · rw [if_neg (not_lt.mpr h1)]
      rcases lt_or_le (x + w) cx with h2 | h2
      · rw [if_pos h2, min_eq_right (le_of_lt h2), max_eq_right (by linarith)]
      · rw [if_neg (not_lt.mpr h2), min_eq_left h2, max_eq_right h1]
  have hcly : (if cy < y then y else if cy > y + h then y + h else cy) =
      max y (min cy (y + h)) := by
    rcases lt_or_le cy y with h1 | h1
    · rw [if_pos h1, min_eq_left (by linarith), max_eq_left (le_of_lt h1)]
    · rw [if_neg (not_lt.mpr h1)]
      rcases lt_or_le (y + h) cy with h2 | h2
      · rw [if_pos h2, min_eq_right (le_of_lt h2), max_eq_right (by linarith)]
      · rw [if_neg (not_lt.mpr h2), min_eq_left h2, max_eq_right h1]
  have hmain : (TreeElement.mk i (ElemGeom.circle cx cy r)).IsInsideRect x y w h = true ↔
      (cx - max x (min cx (x + w))) ^ 2 + (cy - max y (min cy (y + h))) ^ 2 ≤ r ^ 2 := by
    simp only [TreeElement.IsInsideRect, hclx, hcly, decide_eq_true_eq]
    constructor
    · intro hle
      calc (cx - max x (min cx (x + w))) ^ 2 + (cy - max y (min cy (y + h))) ^ 2
          = (cx - max x (min cx (x + w))) * (cx - max x (min cx (x + w))) +
            (cy - max y (min cy (y + h))) * (cy - max y (min cy (y + h))) := by ring
        _ ≤ r * r := hle
        _ = r ^ 2 := by ring
    · intro hle
      calc (cx - max x (min cx (x + w))) * (cx - max x (min cx (x + w))) +
            (cy - max y (min cy (y + h))) * (cy - max y (min cy (y + h)))
          = (cx - max x (min cx (x + w))) ^ 2 + (cy - max y (min cy (y + h))) ^ 2 := by ring
        _ ≤ r ^ 2 := hle
        _ = r * r := by ring
  refine ⟨hmain, fun heq => hmain.mpr (le_of_eq heq), ?_⟩
  intro j ey ew eh
  simp only [TreeElement.IsInsideRect]
  have : ¬ (x + w < x + w) := lt_irrefl _
  simp [this]

/-- Witness for C9: a unit circle tangent to the right edge of the unit square
from outside counts as overlapping, while a rectangle touching that edge does
not. -/
theorem circlePredicate_clamp_C9_witness :
    ((TreeElement.mk 1 (ElemGeom.circle 2 0 1)).IsInsideRect 0 0 1 1 = true ↔
      ((2 : ℚ) - max 0 (min 2 (0 + 1))) ^ 2 + ((0 : ℚ) - max 0 (min 0 (0 + 1))) ^ 2 ≤ 1 ^ 2) ∧
    ((TreeElement.mk 5 (ElemGeom.rect ((0 : ℚ) + 1) 0 1 1)).IsInsideRect 0 0 1 1 = false) :=
  ⟨(circlePredicate_clamp_C9 1 2 0 1 0 0 1 1 zero_le_one zero_le_one).1,
    (circlePredicate_clamp_C9 1 2 0 1 0 0 1 1 zero_le_one zero_le_one).2.2 5 0 1 1⟩

end QuadTree

namespace QuadTree

open QTree Owner

/-- C2 (amended): `AddElement` returns true iff the element's geometry overlaps
the node's bounds — equivalently, iff the owner-index entry grew during the
call.  It does not check prior membership: re-adding an element that is
already a member and still overlaps returns true again (see the
counterexample). -/
theorem addElement_overlap_C2 {fuel : Nat} {e : TreeElement} {s : TreeState} {b : Bool}
    {s' : TreeState} (h : AddElement fuel e s = some (b, s')) :
    b = overlapsNode e s.tree :=
  (AddElement_some_spec h).2

/-- Witness for C2 at a concrete insertion. -/
theorem addElement_overlap_C2_witness :
    (true : Bool) = overlapsNode ⟨1, ElemGeom.point 10 10⟩
      (freshState 0 0 100 100 50 (-1)).tree :=
  @addElement_overlap_C2 20 ⟨1, ElemGeom.point 10 10⟩ (freshState 0 0 100 100 50 (-1)) true
    ⟨QTree.node 0 0 100 100 50 (-1) 0 [⟨1, ElemGeom.point 10 10⟩] none, [(1, [[]])]⟩
    (by with_unfolding_all rfl)

/-- Counterexample to C2 as stated: after an element is already a member
(`HasElement` is true), calling `AddElement` again returns true, not false,
and duplicates the element in the root's list. -/
theorem addElement_overlap_C2_counterexample :
    ((runOps 50 (freshState 0 0 100 100 5 (-1)) [TreeOp.add ⟨1, ElemGeom.point 10 10⟩]).bind
      (fun s => (AddElement 50 ⟨1, ElemGeom.point 10 10⟩ s).map
        (fun r => (HasElement ⟨1, ElemGeom.point 10 10⟩ s, r.1,
          r.2.tree.elements.length)))) = some (true, true, 2) := by
  with_unfolding_all decide

/-- C10: adding an element whose geometry does not overlap the root's bounds
returns false and leaves the tree unchanged, but still creates an empty
owner-index entry, so `GetParentsForElement` afterwards returns an empty
sequence instead of the `none` it returned before the call. -/
theorem addOutside_emptyEntry_C10 {fuel : Nat} {e : TreeElement} {s : TreeState} {b : Bool}
    {s' : TreeState} (hov : overlapsNode e s.tree = false)
    (hnever : s.elementsParents.lookupEntry e.id = none)
    (h : AddElement fuel e s = some (b, s')) :
    b = false ∧ s'.tree = s.tree ∧
    GetParentsForElement e s = none ∧
    s'.elementsParents.lookupEntry e.id = some [] ∧
    GetParentsForElement e s' = some [] := by
  obtain ⟨ht, ho⟩ := addSeq_single_notOverlap hov (AddElement_run h)
  have hb : b = false := by rw [(AddElement_some_spec h).2, hov]
  have hge : s.elementsParents.getEntry e.id = [] := by
    rw [getEntry, hnever]
    rfl
  have hlk : s'.elementsParents.lookupEntry e.id = some [] := by
    rw [ho, lookupEntry_ensureEntry_self, getEntry_ensureEntry, hge]
  exact ⟨hb, ht, by rw [GetParentsForElement, hnever], hlk,
    by rw [GetParentsForElement, hlk]⟩

/-- Witness for C10 at a concrete out-of-bounds insertion. -/
theorem addOutside_emptyEntry_C10_witness :
    (false : Bool) = false ∧
    (⟨QTree.node 0 0 100 100 50 (-1) 0 [] none, [(7, [])]⟩ : TreeState).tree =
      (freshState 0 0 100 100 50 (-1)).tree ∧
    GetParentsForElement ⟨7, ElemGeom.point 500 500⟩ (freshState 0 0 100 100 50 (-1)) = none ∧
    (⟨QTree.node 0 0 100 100 50 (-1) 0 [] none, [(7, [])]⟩ :
      TreeState).elementsParents.lookupEntry 7 = some [] ∧
    GetParentsForElement ⟨7, ElemGeom.point 500 500⟩
      ⟨QTree.node 0 0 100 100 50 (-1) 0 [] none, [(7, [])]⟩ = some [] :=
  @addOutside_emptyEntry_C10 20 ⟨7, ElemGeom.point 500 500⟩ (freshState 0 0 100 100 50 (-1))
    false ⟨QTree.node 0 0 100 100 50 (-1) 0 [] none, [(7, [])]⟩
    (by with_unfolding_all decide) (by rfl) (by with_unfolding_all rfl)

/-- C7: `CreateResized` builds a brand-new tree whose bounds are the given
ones (each omitted bound taken from the current node), with the same capacity
and depth limit, and whose root `_elements` list is exactly the filter of this
node's current elements to those overlapping the new bounds, in order. -/
theorem createResized_filter_C7 {fuel : Nat} {s : TreeState} {ox oy ow oh : Option ℚ}
    {s' : TreeState} (h : CreateResized fuel s ox oy ow oh = some s') :
    s'.tree.x = ox.getD s.tree.x ∧ s'.tree.y = oy.getD s.tree.y ∧
    s'.tree.width = ow.getD s.tree.width ∧ s'.tree.height = oh.getD s.tree.height ∧
    s'.tree.maxElements = s.tree.maxElements ∧ s'.tree.maxDepth = s.tree.maxDepth ∧
    s'.tree.depth = 0 ∧
    s'.tree.elements = s.tree.elements.filter
      (fun v => v.IsInsideRect (ox.getD s.tree.x) (oy.getD s.tree.y)
        (ow.getD s.tree.width) (oh.getD s.tree.height)) := by
  rw [CreateResized, NewTree] at h
  cases hrun : addSeq fuel s.tree.elements []
      (QTree.node (ox.getD s.tree.x) (oy.getD s.tree.y) (ow.getD s.tree.width)
        (oh.getD s.tree.height) s.tree.maxElements s.tree.maxDepth 0 [] none) [] with
  | none => rw [hrun] at h; exact Option.noConfusion h
  | some r =>
      rw [hrun] at h
      simp only [Option.some.injEq] at h
      obtain ⟨h1, h2, h3, h4, h5, h6, h7, h8⟩ :=
        addSeq_spec fuel s.tree.elements [] _ [] r.1 r.2 (by rw [hrun])
      obtain ⟨hx, hy, hw, hh, hme, hmd, hd⟩ := h7
      rw [← h]
      simp only [QTree.x, QTree.y, QTree.width, QTree.height, QTree.maxElements,
        QTree.maxDepth, QTree.depth] at hx hy hw hh hme hmd hd
      refine ⟨hx, hy, hw, hh, hme, hmd, hd, ?_⟩
      show r.1.elements = _
      rw [h8]
      simp [QTree.elements, QTree.x, QTree.y, QTree.width, QTree.height]

/-- Witness for C7: resizing a two-point tree to the quarter rectangle keeps
exactly the point inside it. -/
theorem createResized_filter_C7_witness :
    (⟨QTree.node 0 0 50 50 10 (-1) 0 [⟨1, ElemGeom.point 10 10⟩] none,
        [(1, [[]]), (2, [])]⟩ : TreeState).tree.x =
      (Option.none.getD (⟨QTree.node 0 0 100 100 10 (-1) 0
        [⟨1, ElemGeom.point 10 10⟩, ⟨2, ElemGeom.point 70 70⟩] none,
        [(1, [[]]), (2, [[]])]⟩ : TreeState).tree.x) ∧
    (⟨QTree.node 0 0 50 50 10 (-1) 0 [⟨1, ElemGeom.point 10 10⟩] none,
        [(1, [[]]), (2, [])]⟩ : TreeState).tree.elements =
      (⟨QTree.node 0 0 100 100 10 (-1) 0
        [⟨1, ElemGeom.point 10 10⟩, ⟨2, ElemGeom.point 70 70⟩] none,
        [(1, [[]]), (2, [[]])]⟩ : TreeState).tree.elements.filter
        (fun v => v.IsInsideRect 0 0 50 50) := by
  have hc := @createResized_filter_C7 20
    ⟨QTree.node 0 0 100 100 10 (-1) 0
      [⟨1, ElemGeom.point 10 10⟩, ⟨2, ElemGeom.point 70 70⟩] none,
      [(1, [[]]), (2, [[]])]⟩
    none none (some 50) (some 50)
    ⟨QTree.node 0 0 50 50 10 (-1) 0 [⟨1, ElemGeom.point 10 10⟩] none,
      [(1, [[]]), (2, [])]⟩
    (by with_unfolding_all rfl)
  exact ⟨hc.1, by
    rw [hc.2.2.2.2.2.2.2]
    with_unfolding_all rfl⟩

end QuadTree

namespace QuadTree

open QTree Owner

/-- C5: after every sequence of add/remove/update operations starting from a
freshly constructed root (with elements obeying the `GenerateID` guarantee that
distinct values never share an id), the owner index and the per-node
`_elements` lists agree: for every id and node, the occurrence count of the
element in the node's list equals the occurrence count of the node in the
owner entry for that id. -/
theorem ownerIndexAgree_C5 {fuel : Nat} {x y w h : ℚ} {me : Nat} {md : Int}
    {ops : List TreeOp} {s : TreeState}
    (hco : IdCoherent (ops.map TreeOp.elem))
    (hrun : runOps fuel (freshState x y w h me md) ops = some s) :
    ∀ i q, (s.elementsParents.getEntry i).count q = elemCntId s.tree q i :=
  (runOps_preserves hco ops _ s (fun _ hop => List.mem_map_of_mem _ hop)
    (Inv_fresh x y w h me md (ops.map TreeOp.elem)) hrun).1

/-- Witness for C5 after adding two points and removing one. -/
theorem ownerIndexAgree_C5_witness :
    ((⟨QTree.node 0 0 100 100 50 (-1) 0 [⟨2, ElemGeom.point 20 20⟩] none,
        [(2, [[]])]⟩ : TreeState).elementsParents.getEntry 2).count [] =
      elemCntId (⟨QTree.node 0 0 100 100 50 (-1) 0 [⟨2, ElemGeom.point 20 20⟩] none,
        [(2, [[]])]⟩ : TreeState).tree [] 2 :=
  @ownerIndexAgree_C5 50 0 0 100 100 50 (-1)
    [TreeOp.add ⟨1, ElemGeom.point 10 10⟩, TreeOp.add ⟨2, ElemGeom.point 20 20⟩,
      TreeOp.remove ⟨1, ElemGeom.point 10 10⟩]
    ⟨QTree.node 0 0 100 100 50 (-1) 0 [⟨2, ElemGeom.point 20 20⟩] none, [(2, [[]])]⟩
    (by unfold IdCoherent; with_unfolding_all decide) (by with_unfolding_all rfl) 2 []

end QuadTree

namespace QuadTree

open QTree Owner

/-- The root-membership test in terms of the owner entry: `HasElement` is true
iff the entry for the id (empty when absent) contains the root. -/
theorem HasElement_eq_decide (e : TreeElement) (s : TreeState) :
    HasElement e s = decide ([] ∈ s.elementsParents.getEntry e.id) := by
  rw [HasElement, Owner.getEntry]
  cases s.elementsParents.lookupEntry e.id <;> simp

/-- C4: on any state reachable from a fresh root (ids coherent),
`RemoveElement(E)` followed by `HasElement(E)` returns false and
`GetParentsForElement(E)` returns an empty result (`none` or an empty
sequence); `RemoveElement` returns false and leaves the state unchanged
exactly when E has no current membership record, and otherwise removes E
from every node recorded in its owner entry, clears the entry, and returns
true. -/
theorem removeElement_clears_C4 {fuel : Nat} {x y w h : ℚ} {me : Nat} {md : Int}
    {ops : List TreeOp} {s : TreeState} {e : TreeElement}
    (hco : IdCoherent (e :: ops.map TreeOp.elem))
    (hrun : runOps fuel (freshState x y w h me md) ops = some s) :
    HasElement e (RemoveElement e s).2 = false ∧
    (GetParentsForElement e (RemoveElement e s).2 = none ∨
      GetParentsForElement e (RemoveElement e s).2 = some []) ∧
    ((RemoveElement e s).1 = false ↔ s.elementsParents.getEntry e.id = []) ∧
    ((RemoveElement e s).1 = false → (RemoveElement e s).2 = s) ∧
    ((RemoveElement e s).1 = true →
      (RemoveElement e s).2.elementsParents.lookupEntry e.id = none ∧
      ∀ q, elemCntId (RemoveElement e s).2.tree q e.id = 0) := by
  have hcoA : IdCoherent (ops.map TreeOp.elem) := fun v hv w hw =>
    hco v (List.mem_cons_of_mem _ hv) w (List.mem_cons_of_mem _ hw)
  have hI := runOps_preserves hcoA ops _ s (fun _ hop => List.mem_map_of_mem _ hop)
    (Inv_fresh x y w h me md (ops.map TreeOp.elem)) hrun
  have hcoh : ∀ v ∈ treeElems s.tree, v.id = e.id → v = e := fun v hv hvi =>
    hco v (List.mem_cons_of_mem _ (hI.2.2 v hv)) e (List.mem_cons_self _ _) hvi
  have spec := RemoveElement_spec hI.1 hcoh
  by_cases hHas : HasElement e s = true
  · have hmem : [] ∈ s.elementsParents.getEntry e.id := by
      rw [HasElement_eq_decide] at hHas
      exact of_decide_eq_true hHas
    have hgne : s.elementsParents.getEntry e.id ≠ [] := by
      intro h0
      rw [h0] at hmem
      exact absurd hmem (by simp)
    have hb : (RemoveElement e s).1 = true := by simp [RemoveElement, hHas]
    have hcl := spec.2.2.2.1 hb
    refine ⟨?_, Or.inl hcl.1, ?_, ?_, spec.2.2.2.1⟩
    · rw [HasElement_eq_decide, Owner.getEntry, hcl.1]
      simp
    · rw [hb]
      exact iff_of_false (by simp) hgne
    · intro hfalse
      rw [hb] at hfalse
      exact absurd hfalse (by simp)
  · have hHf : HasElement e s = false := by simpa using hHas
    have hnm : [] ∉ s.elementsParents.getEntry e.id := by
      rw [HasElement_eq_decide] at hHf
      intro hmem
      rw [decide_eq_true hmem] at hHf
      exact absurd hHf (by simp)
    have hge : s.elementsParents.getEntry e.id = [] := by
      by_cases hl : s.elementsParents.getEntry e.id = []
      · exact hl
      · exact absurd (hI.2.1 e.id hl) hnm
    have heq : RemoveElement e s = (false, s) := by simp [RemoveElement, hHf]
    refine ⟨?_, ?_, ?_, ?_, ?_⟩
    · rw [heq]
      show HasElement e s = false
      exact hHf
    · rw [heq]
      show GetParentsForElement e s = none ∨ GetParentsForElement e s = some []
      rw [GetParentsForElement]
      rw [Owner.getEntry] at hge
      cases hlk : s.elementsParents.lookupEntry e.id with
      | none => exact Or.inl rfl
      | some l =>
          rw [hlk] at hge
          simp only [Option.getD_some] at hge
          exact Or.inr (by rw [hge])
    · rw [heq]
      exact iff_of_true rfl hge
    · intro hfalse
      rw [heq]
    · intro htrue
      rw [heq] at htrue
      exact absurd htrue (by simp)

/-- Witness for C4 at a concrete one-element tree. -/
theorem removeElement_clears_C4_witness :
    HasElement ⟨1, ElemGeom.point 10 10⟩
      (RemoveElement ⟨1, ElemGeom.point 10 10⟩
        ⟨QTree.node 0 0 100 100 50 (-1) 0 [⟨1, ElemGeom.point 10 10⟩] none,
          [(1, [[]])]⟩).2 = false ∧
    (RemoveElement ⟨1, ElemGeom.point 10 10⟩
      ⟨QTree.node 0 0 100 100 50 (-1) 0 [⟨1, ElemGeom.point 10 10⟩] none,
        [(1, [[]])]⟩).2.elementsParents.lookupEntry 1 = none ∧
    elemCntId (RemoveElement ⟨1, ElemGeom.point 10 10⟩
      ⟨QTree.node 0 0 100 100 50 (-1) 0 [⟨1, ElemGeom.point 10 10⟩] none,
        [(1, [[]])]⟩).2.tree [] 1 = 0 := by
  have h := @removeElement_clears_C4 20 0 0 100 100 50 (-1)
    [TreeOp.add ⟨1, ElemGeom.point 10 10⟩]
    ⟨QTree.node 0 0 100 100 50 (-1) 0 [⟨1, ElemGeom.point 10 10⟩] none, [(1, [[]])]⟩
    ⟨1, ElemGeom.point 10 10⟩
    (by unfold IdCoherent; with_unfolding_all decide) (by with_unfolding_all rfl)
  have hb : (RemoveElement (⟨1, ElemGeom.point 10 10⟩ : TreeElement)
      ⟨QTree.node 0 0 100 100 50 (-1) 0 [⟨1, ElemGeom.point 10 10⟩] none,
        [(1, [[]])]⟩).1 = true := by
    with_unfolding_all decide
  exact ⟨h.1, (h.2.2.2.2 hb).1, (h.2.2.2.2 hb).2 []⟩

end QuadTree

namespace QuadTree

open QTree

/-- The deduplication filter only drops elements: its output is a sublist of
its input. -/
theorem seenFilter_sublist : ∀ (l : List TreeElement) (seen : List Nat),
    List.Sublist (seenFilter l seen) l := by
  intro l
  induction l with
  | nil => intro seen; simp [seenFilter]
  | cons e es ih =>
      intro seen
      rw [seenFilter]
      by_cases h : e.id ∈ seen
      · rw [if_pos h]
        exact (ih seen).cons e
      · rw [if_neg h]
        exact (ih (e.id :: seen)).cons₂ e

/-- The deduplication filter never emits a seen id, and emits each id at most
once. -/
theorem seenFilter_nodup : ∀ (l : List TreeElement) (seen : List Nat),
    (∀ i ∈ seen, i ∉ (seenFilter l seen).map TreeElement.id) ∧
    ((seenFilter l seen).map TreeElement.id).Nodup := by
  intro l
  induction l with
  | nil => intro seen; simp [seenFilter]
  | cons e es ih =>
      intro seen
      rw [seenFilter]
      by_cases h : e.id ∈ seen
      · rw [if_pos h]
        exact ih seen
      · rw [if_neg h]
        obtain ⟨ih1, ih2⟩ := ih (e.id :: seen)
        constructor
        · intro i hi hmem
          simp only [List.map_cons, List.mem_cons] at hmem
          rcases hmem with rfl | hmem
          · exact h hi
          · exact ih1 i (List.mem_cons_of_mem _ hi) hmem
        · simp only [List.map_cons, List.nodup_cons]
          exact ⟨ih1 e.id (List.mem_cons_self _ _), ih2⟩

/-- Every element the deduplication filter keeps is the first occurrence of
its id in the input. -/
theorem seenFilter_first : ∀ (l : List TreeElement) (seen : List Nat),
    ∀ e ∈ seenFilter l seen, e.id ∉ seen ∧
      List.find? (fun v => v.id == e.id) l = some e := by
  intro l
  induction l with
  | nil => intro seen e he; simp [seenFilter] at he
  | cons x xs ih =>
      intro seen e he
      rw [seenFilter] at he
      by_cases h : x.id ∈ seen
      · rw [if_pos h] at he
        obtain ⟨h1, h2⟩ := ih seen e he
        have hne : (x.id == e.id) = false := by
          simp only [beq_eq_false_iff_ne, ne_eq]
          intro hx
          exact h1 (hx ▸ h)
        refine ⟨h1, ?_⟩
        rw [List.find?_cons]
        simp only [hne]
        exact h2
      · rw [if_neg h] at he
        simp only [List.mem_cons] at he
        rcases he with rfl | he
        · refine ⟨h, ?_⟩
          rw [List.find?_cons]
          simp
        · obtain ⟨h1, h2⟩ := ih (x.id :: seen) e he
          simp only [List.mem_cons, not_or] at h1
          have hne : (x.id == e.id) = false := by
            simp only [beq_eq_false_iff_ne, ne_eq]
            exact fun hx => h1.1 hx.symm
          refine ⟨h1.2, ?_⟩
          rw [List.find?_cons]
          simp only [hne]
          exact h2

/-- Every unseen id of the input survives the deduplication filter. -/
theorem seenFilter_covers : ∀ (l : List TreeElement) (seen : List Nat),
    ∀ e ∈ l, e.id ∉ seen → ∃ e2 ∈ seenFilter l seen, e2.id = e.id := by
  intro l
  induction l with
  | nil => intro seen e he; simp at he
  | cons x xs ih =>
      intro seen e he hns
      rw [seenFilter]
      simp only [List.mem_cons] at he
      by_cases h : x.id ∈ seen
      · rw [if_pos h]
        rcases he with rfl | he
        · exact absurd h hns
        · exact ih seen e he hns
      · rw [if_neg h]
        rcases he with rfl | he
        · exact ⟨_, List.mem_cons_self _ _, rfl⟩
        · by_cases hxe : e.id = x.id
          · exact ⟨x, List.mem_cons_self x (seenFilter xs (x.id :: seen)), hxe.symm⟩
          · obtain ⟨e2, he2, hid⟩ := ih (x.id :: seen) e he (by
              simp only [List.mem_cons, not_or]
              exact ⟨hxe, hns⟩)
            exact ⟨e2, List.mem_cons_of_mem _ he2, hid⟩

/-- On an input whose ids are distinct and disjoint from the seen set, the
deduplication filter is the identity. -/
theorem seenFilter_of_nodup : ∀ (l : List TreeElement) (seen : List Nat),
    (l.map TreeElement.id).Nodup → (∀ e ∈ l, e.id ∉ seen) → seenFilter l seen = l := by
  intro l
  induction l with
  | nil => intro seen _ _; rw [seenFilter]
  | cons x xs ih =>
      intro seen hnd hdis
      simp only [List.map_cons, List.nodup_cons, List.mem_map] at hnd
      rw [seenFilter, if_neg (hdis x (List.mem_cons_self _ _))]
      congr 1
      refine ih (x.id :: seen) hnd.2 ?_
      intro e he
      simp only [List.mem_cons, not_or]
      exact ⟨fun hex => hnd.1 ⟨e, he, hex⟩, hdis e (List.mem_cons_of_mem _ he)⟩

/-- The collection loop of `GetElementsInRect` on a single leaf: its elements
when the leaf is nonempty and overlaps the query rectangle, else nothing. -/
theorem elementsInRectPool_leaf (rx ry rw rh a b c d : ℚ) (f : Nat) (g : Int) (i : Nat)
    (els : List TreeElement) :
    elementsInRectPool rx ry rw rh [QTree.node a b c d f g i els none] =
      if els.isEmpty ||
          !((QTree.node a b c d f g i els none).IsRectInBounds rx ry rw rh) then []
      else els := by
  rw [elementsInRectPool]
  by_cases h : els.isEmpty ||
      !((QTree.node a b c d f g i els none).IsRectInBounds rx ry rw rh)
  · rw [if_pos (by exact h), if_pos h]
    rw [elementsInRectPool]
  · rw [if_neg (by exact h), if_neg h]
    simp only [QTree.children]
    rw [elementsInRectPool]
    simp [QTree.elements]

/-- C6 (amended): with `filterDuplicates = true`, `GetElementsInRect` returns
a sublist of the unfiltered result whose ids are pairwise distinct, keeping
exactly the first occurrence of each id (so first-encountered order is
preserved) and covering every id the unfiltered result contains; and on a
tree with no split nodes *whose stored ids are distinct*, the filtered and
unfiltered results coincide.  (Without the distinct-ids proviso the last part
is false: see the counterexample, a reachable split-free tree storing one
element twice.) -/
theorem getElementsInRect_dedup_C6 (t : QTree) (rx ry rw rh : ℚ) :
    ((GetElementsInRect t rx ry rw rh true).map TreeElement.id).Nodup ∧
    List.Sublist (GetElementsInRect t rx ry rw rh true)
      (GetElementsInRect t rx ry rw rh false) ∧
    (∀ e ∈ GetElementsInRect t rx ry rw rh true,
      List.find? (fun v => v.id == e.id) (GetElementsInRect t rx ry rw rh false) = some e) ∧
    (∀ e ∈ GetElementsInRect t rx ry rw rh false,
      ∃ e2 ∈ GetElementsInRect t rx ry rw rh true, e2.id = e.id) ∧
    (t.children = none → (t.elements.map TreeElement.id).Nodup →
      GetElementsInRect t rx ry rw rh true = GetElementsInRect t rx ry rw rh false) := by
  have hT : GetElementsInRect t rx ry rw rh true =
      seenFilter (elementsInRectPool rx ry rw rh [t]) [] := rfl
  have hF : GetElementsInRect t rx ry rw rh false =
      elementsInRectPool rx ry rw rh [t] := rfl
  rw [hT, hF]
  refine ⟨(seenFilter_nodup _ _).2, seenFilter_sublist _ _,
    fun e he => (seenFilter_first _ _ e he).2,
    fun e he => seenFilter_covers _ _ e he (by simp), ?_⟩
  intro hch hnd
  cases t with
  | node a b c d f g i els ch =>
      simp only [QTree.children] at hch
      subst hch
      simp only [QTree.elements] at hnd
      rw [elementsInRectPool_leaf]
      by_cases hc : els.isEmpty ||
          !((QTree.node a b c d f g i els none).IsRectInBounds rx ry rw rh)
      · rw [if_pos hc]
        rw [seenFilter]
      · rw [if_neg hc]
        exact seenFilter_of_nodup els [] hnd (by simp)

/-- Witness for C6 on a concrete two-element leaf with distinct ids. -/
theorem getElementsInRect_dedup_C6_witness :
    ((GetElementsInRect (QTree.node 0 0 100 100 5 (-1) 0
        [⟨1, ElemGeom.point 10 10⟩, ⟨2, ElemGeom.point 20 20⟩] none)
        0 0 100 100 true).map TreeElement.id).Nodup ∧
    GetElementsInRect (QTree.node 0 0 100 100 5 (-1) 0
        [⟨1, ElemGeom.point 10 10⟩, ⟨2, ElemGeom.point 20 20⟩] none) 0 0 100 100 true =
      GetElementsInRect (QTree.node 0 0 100 100 5 (-1) 0
        [⟨1, ElemGeom.point 10 10⟩, ⟨2, ElemGeom.point 20 20⟩] none) 0 0 100 100 false :=
  ⟨(getElementsInRect_dedup_C6 (QTree.node 0 0 100 100 5 (-1) 0
      [⟨1, ElemGeom.point 10 10⟩, ⟨2, ElemGeom.point 20 20⟩] none) 0 0 100 100).1,
   (getElementsInRect_dedup_C6 (QTree.node 0 0 100 100 5 (-1) 0
      [⟨1, ElemGeom.point 10 10⟩, ⟨2, ElemGeom.point 20 20⟩] none) 0 0 100 100).2.2.2.2
     rfl (by decide)⟩

/-- Counterexample to C6 as stated: adding the same element twice from a
fresh root yields a reachable tree with no split nodes on which
`filterDuplicates = false` returns the element twice but
`filterDuplicates = true` returns it once — different multisets. -/
theorem getElementsInRect_dedup_C6_counterexample :
    runOps 20 (freshState 0 0 100 100 5 (-1))
        [TreeOp.add ⟨1, ElemGeom.point 10 10⟩, TreeOp.add ⟨1, ElemGeom.point 10 10⟩] =
      some ⟨QTree.node 0 0 100 100 5 (-1) 0
        [⟨1, ElemGeom.point 10 10⟩, ⟨1, ElemGeom.point 10 10⟩] none, [(1, [[], []])]⟩ ∧
    (QTree.node 0 0 100 100 5 (-1) 0
        [⟨1, ElemGeom.point 10 10⟩, ⟨1, ElemGeom.point 10 10⟩] none).children = none ∧
    GetElementsInRect (QTree.node 0 0 100 100 5 (-1) 0
        [⟨1, ElemGeom.point 10 10⟩, ⟨1, ElemGeom.point 10 10⟩] none) 0 0 100 100 false =
      [⟨1, ElemGeom.point 10 10⟩, ⟨1, ElemGeom.point 10 10⟩] ∧
    GetElementsInRect (QTree.node 0 0 100 100 5 (-1) 0
        [⟨1, ElemGeom.point 10 10⟩, ⟨1, ElemGeom.point 10 10⟩] none) 0 0 100 100 true =
      [⟨1, ElemGeom.point 10 10⟩] := by
  have hcond : (([⟨1, ElemGeom.point 10 10⟩, ⟨1, ElemGeom.point 10 10⟩] :
      List TreeElement).isEmpty ||
      !((QTree.node 0 0 100 100 5 (-1) 0
        [⟨1, ElemGeom.point 10 10⟩, ⟨1, ElemGeom.point 10 10⟩] none).IsRectInBounds
          0 0 100 100)) = false := by
    with_unfolding_all decide
  have hF : GetElementsInRect (QTree.node 0 0 100 100 5 (-1) 0
      [⟨1, ElemGeom.point 10 10⟩, ⟨1, ElemGeom.point 10 10⟩] none) 0 0 100 100 false =
      [⟨1, ElemGeom.point 10 10⟩, ⟨1, ElemGeom.point 10 10⟩] := by
    show elementsInRectPool 0 0 100 100 [QTree.node 0 0 100 100 5 (-1) 0
      [⟨1, ElemGeom.point 10 10⟩, ⟨1, ElemGeom.point 10 10⟩] none] = _
    rw [elementsInRectPool_leaf, hcond]
    simp
  have hTr : GetElementsInRect (QTree.node 0 0 100 100 5 (-1) 0
      [⟨1, ElemGeom.point 10 10⟩, ⟨1, ElemGeom.point 10 10⟩] none) 0 0 100 100 true =
      [⟨1, ElemGeom.point 10 10⟩] := by
    show seenFilter (elementsInRectPool 0 0 100 100 [QTree.node 0 0 100 100 5 (-1) 0
      [⟨1, ElemGeom.point 10 10⟩, ⟨1, ElemGeom.point 10 10⟩] none]) [] = _
    rw [show elementsInRectPool 0 0 100 100 [QTree.node 0 0 100 100 5 (-1) 0
      [⟨1, ElemGeom.point 10 10⟩, ⟨1, ElemGeom.point 10 10⟩] none] =
        [⟨1, ElemGeom.point 10 10⟩, ⟨1, ElemGeom.point 10 10⟩] by
      rw [elementsInRectPool_leaf, hcond]; simp]
    decide
  exact ⟨by with_unfolding_all rfl, rfl, hF, hTr⟩

end QuadTree

namespace QuadTree

open QTree Owner

/-- Inserting an empty worklist is a no-op at any fuel. -/
theorem addSeq_nil (fuel : Nat) (p : NodePath) (t : QTree) (o : Owner) :
    addSeq fuel [] p t o = some (t, o) := by
  cases fuel <;> cases t <;> rfl

/-- One insertion into a leaf, exhaustively: skipped when outside the bounds;
appended without splitting when the post-append count does not exceed capacity
or the depth limit forbids it; otherwise appended and split into exactly four
children. -/
theorem addSeq_single_leaf {f : Nat} {e : TreeElement} {p : NodePath}
    {tx ty tw th : ℚ} {tme : Nat} {tmd : Int} {td : Nat} {tels : List TreeElement}
    {o : Owner} {t2 : QTree} {o2 : Owner}
    (h : addSeq f [e] p (QTree.node tx ty tw th tme tmd td tels none) o = some (t2, o2)) :
    (e.IsInsideRect tx ty tw th = false ∧
      t2 = QTree.node tx ty tw th tme tmd td tels none) ∨
    (e.IsInsideRect tx ty tw th = true ∧
      ((decide (tmd < 0) || decide ((td : Int) < tmd)) &&
        decide ((tels ++ [e]).length > tme)) = false ∧
      t2 = QTree.node tx ty tw th tme tmd td (tels ++ [e]) none) ∨
    (e.IsInsideRect tx ty tw th = true ∧
      ((decide (tmd < 0) || decide ((td : Int) < tmd)) &&
        decide ((tels ++ [e]).length > tme)) = true ∧
      ∃ c0 c1 c2 c3,
        t2 = QTree.node tx ty tw th tme tmd td (tels ++ [e]) (some (c0, c1, c2, c3))) := by
  cases f with
  | zero => exact Option.noConfusion (by simpa only [addSeq] using h)
  | succ f =>
      rw [addSeq] at h
      by_cases hov : e.IsInsideRect tx ty tw th
      · rw [if_pos hov] at h
        dsimp only [] at h
        by_cases hsp : ((decide (tmd < 0) || decide ((td : Int) < tmd)) &&
            decide ((tels ++ [e]).length > tme)) = true
        · rw [if_pos hsp] at h
          refine Or.inr (Or.inr ⟨hov, hsp, ?_⟩)
          simp only [Option.bind_eq_bind] at h
          rw [Option.bind_eq_some] at h
          obtain ⟨r0, h0, h⟩ := h
          rw [Option.bind_eq_some] at h
          obtain ⟨r1, h1, h⟩ := h
          rw [Option.bind_eq_some] at h
          obtain ⟨r2, h2, h⟩ := h
          rw [Option.bind_eq_some] at h
          obtain ⟨r3, h3, h⟩ := h
          rw [addSeq_nil, Option.some.injEq, Prod.mk.injEq] at h
          exact ⟨r0.1, r1.1, r2.1, r3.1, h.1.symm⟩
        · rw [if_neg hsp] at h
          rw [addSeq_nil, Option.some.injEq, Prod.mk.injEq] at h
          exact Or.inr (Or.inl ⟨hov, Bool.not_eq_true _ ▸ hsp, h.1.symm⟩)
      · rw [if_neg hov] at h
        rw [addSeq_nil, Option.some.injEq, Prod.mk.injEq] at h
        exact Or.inl ⟨Bool.not_eq_true _ ▸ hov, h.1.symm⟩


/-- Running a concatenation of operation lists is running them in turn. -/
theorem runOps_append (fuel : Nat) : ∀ (l1 l2 : List TreeOp) (s : TreeState),
    runOps fuel s (l1 ++ l2) = (runOps fuel s l1).bind (fun s1 => runOps fuel s1 l2) := by
  intro l1
  induction l1 with
  | nil => intro l2 s; simp [runOps]
  | cons op l1 ih =>
      intro l2 s
      simp only [List.cons_append, runOps]
      cases h : runOp fuel s op with
      | none => simp
      | some s1 => simp [ih]

/-- A run of insertions into a leaf that cannot reach the capacity threshold
leaves it a leaf: each step appends at most one element (exactly one when the
element overlaps), and no split fires. -/
theorem runAdds_leaf (tx ty tw th : ℚ) (tme : Nat) (tmd : Int) (td : Nat) {fuel : Nat} :
    ∀ (es : List TreeElement) (tels : List TreeElement) (ep : Owner) (s2 : TreeState),
    tels.length + es.length ≤ tme →
    runOps fuel ⟨QTree.node tx ty tw th tme tmd td tels none, ep⟩ (es.map TreeOp.add) =
      some s2 →
    ∃ tels2 ep2, s2 = ⟨QTree.node tx ty tw th tme tmd td tels2 none, ep2⟩ ∧
      tels2.length ≤ tels.length + es.length ∧ tels.length ≤ tels2.length ∧
      ((∀ e ∈ es, e.IsInsideRect tx ty tw th = true) →
        tels2.length = tels.length + es.length) := by
  intro es
  induction es with
  | nil =>
      intro tels ep s2 hle hrun
      simp only [List.map_nil, runOps, Option.some.injEq] at hrun
      exact ⟨tels, ep, hrun.symm, by omega, by omega, fun _ => by simp⟩
  | cons e rest ih =>
      intro tels ep s2 hle hrun
      simp only [List.map_cons, runOps] at hrun
      cases hop : runOp fuel ⟨QTree.node tx ty tw th tme tmd td tels none, ep⟩
          (TreeOp.add e) with
      | none => rw [hop] at hrun; exact Option.noConfusion hrun
      | some s1 =>
          rw [hop] at hrun
          simp only [runOp, Option.map_eq_some'] at hop
          obtain ⟨r, hadd, hr2⟩ := hop
          have hadd2 : AddElement fuel e
              ⟨QTree.node tx ty tw th tme tmd td tels none, ep⟩ = some (r.1, r.2) := by
            rw [hadd]
          have hrun2 := AddElement_run hadd2
          rw [hr2] at hrun2
          cases s1 with
          | mk tr1 par1 =>
              rcases addSeq_single_leaf hrun2 with ⟨hov, ht⟩ | ⟨hov, hsp, ht⟩ |
                  ⟨hov, hsp, c0, c1, c2, c3, ht⟩
              · simp only at ht
                subst ht
                simp only [List.length_cons] at hle
                obtain ⟨tels2, ep2, hs2, hb1, hb2, hball⟩ :=
                  ih tels par1 s2 (by omega) hrun
                refine ⟨tels2, ep2, hs2, by simp only [List.length_cons]; omega,
                  by omega, ?_⟩
                intro hall
                exact absurd (hall e (List.mem_cons_self _ _)) (by rw [hov]; simp)
              · simp only at ht
                subst ht
                simp only [List.length_cons] at hle
                obtain ⟨tels2, ep2, hs2, hb1, hb2, hball⟩ :=
                  ih (tels ++ [e]) par1 s2
                    (by simp only [List.length_append, List.length_singleton]; omega) hrun
                refine ⟨tels2, ep2, hs2, ?_, ?_, ?_⟩
                · simp only [List.length_append, List.length_singleton] at hb1
                  simp only [List.length_cons]
                  omega
                · simp only [List.length_append, List.length_singleton] at hb2
                  omega
                · intro hall
                  have := hball (fun v hv => hall v (List.mem_cons_of_mem _ hv))
                  simp only [List.length_append, List.length_singleton] at this
                  simp only [List.length_cons]
                  omega
              · exfalso
                have hsp2 := (Bool.and_eq_true _ _ |>.mp hsp).2
                have : (tels ++ [e]).length > tme := of_decide_eq_true hsp2
                simp only [List.length_append, List.length_singleton] at this
                simp only [List.length_cons] at hle
                omega

/-- C1: a leaf splits on an insertion iff, after the element is appended, its
element count strictly exceeds `maxElements` and the depth limit allows it
(`maxDepth < 0` or `depth < maxDepth`); in particular, inserting up to
`capacity` elements into a fresh leaf never splits it, and inserting
`capacity + 1` overlapping elements with the depth limit unreached does. -/
theorem leafSplit_C1 :
    (∀ (f : Nat) (e : TreeElement) (p : NodePath) (tx ty tw th : ℚ) (tme : Nat)
      (tmd : Int) (td : Nat) (tels : List TreeElement) (o : Owner) (t2 : QTree) (o2 : Owner),
      addSeq f [e] p (QTree.node tx ty tw th tme tmd td tels none) o = some (t2, o2) →
      e.IsInsideRect tx ty tw th = true →
      (t2.children ≠ none ↔ ((tmd < 0 ∨ (td : Int) < tmd) ∧ (tels ++ [e]).length > tme))) ∧
    (∀ (fuel : Nat) (x y w h : ℚ) (me : Nat) (md : Int) (es : List TreeElement)
      (s2 : TreeState),
      es.length ≤ me →
      runOps fuel (freshState x y w h me md) (es.map TreeOp.add) = some s2 →
      s2.tree.children = none) ∧
    (∀ (fuel : Nat) (x y w h : ℚ) (me : Nat) (md : Int) (es : List TreeElement)
      (s2 : TreeState),
      es.length = me + 1 → (md < 0 ∨ 0 < md) →
      (∀ e ∈ es, e.IsInsideRect x y w h = true) →
      runOps fuel (freshState x y w h me md) (es.map TreeOp.add) = some s2 →
      s2.tree.children ≠ none) := by
  refine ⟨?_, ?_, ?_⟩
  · intro f e p tx ty tw th tme tmd td tels o t2 o2 h hov
    rcases addSeq_single_leaf h with ⟨hov2, ht⟩ | ⟨hov2, hsp, ht⟩ |
        ⟨hov2, hsp, c0, c1, c2, c3, ht⟩
    · rw [hov] at hov2; exact absurd hov2 (by simp)
    · subst ht
      simp only [Bool.and_eq_false_iff, Bool.or_eq_false_iff,
        decide_eq_false_iff_not, not_lt] at hsp
      refine iff_of_false (by simp [QTree.children]) ?_
      rintro ⟨hd, hc⟩
      rcases hsp with ⟨h1, h2⟩ | h3
      · rcases hd with hd | hd
        · exact absurd hd (not_lt.mpr h1)
        · exact absurd hd (not_lt.mpr h2)
      · exact absurd hc (not_lt.mpr h3)
    · subst ht
      refine iff_of_true (by simp [QTree.children]) ?_
      simp only [Bool.and_eq_true, Bool.or_eq_true, decide_eq_true_eq] at hsp
      exact ⟨hsp.1, hsp.2⟩
  · intro fuel x y w h me md es s2 hle hrun
    obtain ⟨tels2, ep2, hs2, _⟩ := runAdds_leaf x y w h me md 0 es [] [] s2
      (by simpa using hle) hrun
    subst hs2
    rfl
  · intro fuel x y w h me md es s2 hlen hmd hall hrun
    have htd : es = es.take me ++ es.drop me := (List.take_append_drop me es).symm
    rw [htd, List.map_append, runOps_append] at hrun
    rw [Option.bind_eq_some] at hrun
    obtain ⟨smid, h1, h2⟩ := hrun
    have htake : (es.take me).length = me := by
      rw [List.length_take]
      omega
    obtain ⟨tels2, ep2, hsmid, _, _, hfull⟩ := runAdds_leaf x y w h me md 0 (es.take me) [] []
      smid (by simp [htake]) h1
    have hlen2 : tels2.length = me := by
      have := hfull (fun v hv => hall v (List.take_subset _ _ hv))
      simpa [htake] using this
    have hdrop1 : (es.drop me).length = 1 := by
      rw [List.length_drop]
      omega
    obtain ⟨elast, hdrop⟩ := List.length_eq_one.mp hdrop1
    subst hsmid
    rw [hdrop] at h2
    simp only [List.map_cons, List.map_nil, runOps] at h2
    cases hop : runOp fuel ⟨QTree.node x y w h me md 0 tels2 none, ep2⟩
        (TreeOp.add elast) with
    | none => rw [hop] at h2; exact Option.noConfusion h2
    | some s3 =>
        rw [hop] at h2
        simp only [runOps, Option.some.injEq] at h2
        subst h2
        simp only [runOp, Option.map_eq_some'] at hop
        obtain ⟨r, hadd, hr2⟩ := hop
        have hadd2 : AddElement fuel elast
            ⟨QTree.node x y w h me md 0 tels2 none, ep2⟩ = some (r.1, r.2) := by
          rw [hadd]
        have hrun2 := AddElement_run hadd2
        rw [hr2] at hrun2
        have hin : elast.IsInsideRect x y w h = true := by
          refine hall elast ?_
          rw [htd, hdrop]
          exact List.mem_append_right _ (List.mem_cons_self _ _)
        rcases addSeq_single_leaf hrun2 with ⟨hov, ht⟩ | ⟨hov, hsp, ht⟩ |
            ⟨hov, hsp, c0, c1, c2, c3, ht⟩
        · rw [hin] at hov; exact absurd hov (by simp)
        · exfalso
          simp only [Bool.and_eq_false_iff, Bool.or_eq_false_iff,
            decide_eq_false_iff_not, not_lt] at hsp
          rcases hsp with ⟨hd1, hd2⟩ | h3
          · rcases hmd with hmd | hmd
            · exact absurd hmd (not_lt.mpr hd1)
            · refine absurd hmd (not_lt.mpr ?_)
              simpa using hd2
          · simp only [List.length_append, List.length_singleton, hlen2] at h3
            omega
        · rw [ht]
          simp [QTree.children]
  

/-- Witness for C1: a capacity-1, depth-limit-1 tree splitting on its second
insertion, and a capacity-2 tree not splitting on two insertions. -/
theorem leafSplit_C1_witness :
    ((QTree.node 0 0 100 100 1 1 0
        [⟨1, ElemGeom.point 10 10⟩, ⟨2, ElemGeom.point 20 20⟩]
        (some (QTree.node 0 0 50 50 1 1 1
            [⟨1, ElemGeom.point 10 10⟩, ⟨2, ElemGeom.point 20 20⟩] none,
          QTree.node 50 0 50 50 1 1 1 [] none,
          QTree.node 0 50 50 50 1 1 1 [] none,
          QTree.node 50 50 50 50 1 1 1 [] none))).children ≠ none ↔
      (((1 : Int) < 0 ∨ ((0 : Nat) : Int) < 1) ∧
        ([(⟨1, ElemGeom.point 10 10⟩ : TreeElement)] ++
          [(⟨2, ElemGeom.point 20 20⟩ : TreeElement)]).length > 1)) ∧
    (⟨QTree.node 0 0 100 100 2 (-1) 0
        [⟨1, ElemGeom.point 10 10⟩, ⟨2, ElemGeom.point 20 20⟩] none,
        [(1, [[]]), (2, [[]])]⟩ : TreeState).tree.children = none ∧
    (⟨QTree.node 0 0 100 100 1 1 0
        [⟨1, ElemGeom.point 10 10⟩, ⟨2, ElemGeom.point 20 20⟩]
        (some (QTree.node 0 0 50 50 1 1 1
            [⟨1, ElemGeom.point 10 10⟩, ⟨2, ElemGeom.point 20 20⟩] none,
          QTree.node 50 0 50 50 1 1 1 [] none,
          QTree.node 0 50 50 50 1 1 1 [] none,
          QTree.node 50 50 50 50 1 1 1 [] none)),
        [(1, [[], [0]]), (2, [[], [0]])]⟩ : TreeState).tree.children ≠ none :=
  ⟨leafSplit_C1.1 5 ⟨2, ElemGeom.point 20 20⟩ [] 0 0 100 100 1 1 0
      [⟨1, ElemGeom.point 10 10⟩] [(1, [[]])] _ [(1, [[], [0]]), (2, [[], [0]])]
      (by with_unfolding_all rfl) (by with_unfolding_all decide),
   leafSplit_C1.2.1 20 0 0 100 100 2 (-1)
      [⟨1, ElemGeom.point 10 10⟩, ⟨2, ElemGeom.point 20 20⟩] _
      (by decide) (by with_unfolding_all rfl),
   leafSplit_C1.2.2 20 0 0 100 100 1 1
      [⟨1, ElemGeom.point 10 10⟩, ⟨2, ElemGeom.point 20 20⟩] _
      (by decide) (Or.inr (by decide)) (by with_unfolding_all decide)
      (by with_unfolding_all rfl)⟩

end QuadTree

namespace QuadTree

open QTree

/-- The half-open point-in-rectangle test on raw bounds. -/
def pointInRect (px py rx ry rw rh : ℚ) : Bool :=
  decide (px ≥ rx) && decide (py ≥ ry) && decide (px < rx + rw) && decide (py < ry + rh)

/-- The node bounds test in terms of the raw rectangle test. -/
theorem IsPointInBounds_eq (t : QTree) (px py : ℚ) :
    t.IsPointInBounds px py = pointInRect px py t.x t.y t.width t.height := by
  cases t
  rfl

/-- Propositional form of the half-open point test. -/
theorem pointInRect_iff (px py rx ry rw rh : ℚ) :
    pointInRect px py rx ry rw rh = true ↔
      (rx ≤ px ∧ ry ≤ py ∧ px < rx + rw ∧ py < ry + rh) := by
  simp [pointInRect, and_assoc, ge_iff_le]

/-- Negated propositional form of the half-open point test. -/
theorem pointInRect_false_iff (px py rx ry rw rh : ℚ) :
    pointInRect px py rx ry rw rh = false ↔
      ¬ (rx ≤ px ∧ ry ≤ py ∧ px < rx + rw ∧ py < ry + rh) := by
  rw [← pointInRect_iff, ← Bool.not_eq_true]

/-- The quadrant geometry `_CreateChildren` sets up: each child covers the
corresponding half-open quarter of this node's rectangle. -/
def wfb : QTree → Bool
  | .node _ _ _ _ _ _ _ _ none => true
  | .node x y w h _ _ _ _ (some (c0, c1, c2, c3)) =>
      (decide (c0.x = x) && decide (c0.y = y) &&
        decide (c0.width = w / 2) && decide (c0.height = h / 2)) &&
      (decide (c1.x = x + w / 2) && decide (c1.y = y) &&
        decide (c1.width = w / 2) && decide (c1.height = h / 2)) &&
      (decide (c2.x = x) && decide (c2.y = y + h / 2) &&
        decide (c2.width = w / 2) && decide (c2.height = h / 2)) &&
      (decide (c3.x = x + w / 2) && decide (c3.y = y + h / 2) &&
        decide (c3.width = w / 2) && decide (c3.height = h / 2)) &&
      wfb c0 && wfb c1 && wfb c2 && wfb c3

/-- "The element is stored exactly once along its containment path": every
node whose bounds contain the point holds the element exactly once in its
`_elements` list, every other node not at all.  This is the state `AddElement`
leaves behind for a point element added exactly once. -/
def storedOnceAt (e : TreeElement) (px py : ℚ) : QTree → Bool
  | .node x y w h _ _ _ els none =>
      els.count e == if pointInRect px py x y w h then 1 else 0
  | .node x y w h _ _ _ els (some (c0, c1, c2, c3)) =>
      (els.count e == if pointInRect px py x y w h then 1 else 0) &&
      storedOnceAt e px py c0 && storedOnceAt e px py c1 &&
      storedOnceAt e px py c2 && storedOnceAt e px py c3

/-- A point inside a rectangle lies in exactly one of its four half-open
quadrants. -/
theorem quadrant_cases (px py x y w h : ℚ)
    (hin : pointInRect px py x y w h = true) :
    (pointInRect px py x y (w / 2) (h / 2) = true ∧
      pointInRect px py (x + w / 2) y (w / 2) (h / 2) = false ∧
      pointInRect px py x (y + h / 2) (w / 2) (h / 2) = false ∧
      pointInRect px py (x + w / 2) (y + h / 2) (w / 2) (h / 2) = false) ∨
    (pointInRect px py (x + w / 2) y (w / 2) (h / 2) = true ∧
      pointInRect px py x y (w / 2) (h / 2) = false ∧
      pointInRect px py x (y + h / 2) (w / 2) (h / 2) = false ∧
      pointInRect px py (x + w / 2) (y + h / 2) (w / 2) (h / 2) = false) ∨
    (pointInRect px py x (y + h / 2) (w / 2) (h / 2) = true ∧
      pointInRect px py x y (w / 2) (h / 2) = false ∧
      pointInRect px py (x + w / 2) y (w / 2) (h / 2) = false ∧
      pointInRect px py (x + w / 2) (y + h / 2) (w / 2) (h / 2) = false) ∨
    (pointInRect px py (x + w / 2) (y + h / 2) (w / 2) (h / 2) = true ∧
      pointInRect px py x y (w / 2) (h / 2) = false ∧
      pointInRect px py (x + w / 2) y (w / 2) (h / 2) = false ∧
      pointInRect px py x (y + h / 2) (w / 2) (h / 2) = false) := by
  rw [pointInRect_iff] at hin
  obtain ⟨h1, h2, h3, h4⟩ := hin
  rcases lt_or_le px (x + w / 2) with hx | hx <;> rcases lt_or_le py (y + h / 2) with hy | hy
  · refine Or.inl ⟨?_, ?_, ?_, ?_⟩
    · rw [pointInRect_iff]; exact ⟨h1, h2, hx, hy⟩
    all_goals rw [pointInRect_false_iff]; rintro ⟨ha, hb, hc, hd⟩; linarith
  · refine Or.inr (Or.inr (Or.inl ⟨?_, ?_, ?_, ?_⟩))
    · rw [pointInRect_iff]
      refine ⟨h1, hy, hx, by linarith⟩
    all_goals rw [pointInRect_false_iff]; rintro ⟨ha, hb, hc, hd⟩; linarith
  · refine Or.inr (Or.inl ⟨?_, ?_, ?_, ?_⟩)
    · rw [pointInRect_iff]
      refine ⟨hx, h2, by linarith, hy⟩
    all_goals rw [pointInRect_false_iff]; rintro ⟨ha, hb, hc, hd⟩; linarith
  · refine Or.inr (Or.inr (Or.inr ⟨?_, ?_, ?_, ?_⟩))
    · rw [pointInRect_iff]
      refine ⟨hx, hy, by linarith, by linarith⟩
    all_goals rw [pointInRect_false_iff]; rintro ⟨ha, hb, hc, hd⟩; linarith

/-- Every node counts itself. -/
theorem size_pos (t : QTree) : 1 ≤ t.size := by
  cases t with
  | node a b c d f g i els ch =>
      cases ch with
      | none => simp [QTree.size]
      | some cc =>
          obtain ⟨c0, c1, c2, c3⟩ := cc
          simp [QTree.size]


/-- The `GetElementsAt` worklist: if the pool is some skipped (out-of-bounds)
nodes followed by a quadrant-shaped node that stores the element exactly once
along the containment path of an in-bounds point, the traversal returns a
list holding the element exactly once: the empty-list and bounds pruning
never skip the unique containing leaf. -/
theorem elementsAtPool_count_aux (e : TreeElement) (px py : ℚ) :
    ∀ (n : Nat) (pool : List QTree), (pool.map QTree.size).sum ≤ n →
    ∀ (pre : List QTree) (tc : QTree) (post : List QTree),
    pool = pre ++ tc :: post →
    (∀ u ∈ pre, u.IsPointInBounds px py = false) →
    wfb tc = true → storedOnceAt e px py tc = true →
    tc.IsPointInBounds px py = true →
    (elementsAtPool px py pool).count e = 1 := by
  intro n
  induction n with
  | zero =>
      intro pool hn pre tc post hpool hpre hwf hst hin
      subst hpool
      exfalso
      have h1 := size_pos tc
      simp only [List.map_append, List.sum_append, List.map_cons, List.sum_cons] at hn
      omega
  | succ n ih =>
      intro pool hn pre tc post hpool hpre hwf hst hin
      subst hpool
      cases pre with
      | cons u pre2 =>
          have hu : u.IsPointInBounds px py = false := hpre u (List.mem_cons_self _ _)
          have hcond : (u.elements.isEmpty || !(u.IsPointInBounds px py)) = true := by
            rw [hu]
            simp
          simp only [List.cons_append]
          rw [elementsAtPool, if_pos (by exact hcond)]
          refine ih (pre2 ++ tc :: post) ?_ pre2 tc post rfl
            (fun v hv => hpre v (List.mem_cons_of_mem _ hv)) hwf hst hin
          have h1 := size_pos u
          simp only [List.map_cons, List.sum_cons, List.map_append, List.sum_append] at hn ⊢
          omega
      | nil =>
          simp only [List.nil_append] at hn ⊢
          cases tc with
          | node x y w h me md d els ch =>
              have hinP : pointInRect px py x y w h = true := by
                rw [IsPointInBounds_eq] at hin
                simpa [QTree.x, QTree.y, QTree.width, QTree.height] using hin
              cases ch with
              | none =>
                  have hcnt : els.count e = 1 := by
                    simp only [storedOnceAt, beq_iff_eq] at hst
                    rw [hst, if_pos hinP]
                  have hne : els.isEmpty = false := by
                    cases els with
                    | nil => simp at hcnt
                    | cons a as => rfl
                  have hcond : (((QTree.node x y w h me md d els none).elements).isEmpty ||
                      !((QTree.node x y w h me md d els none).IsPointInBounds px py)) =
                        false := by
                    simp only [QTree.elements, hne, hin, Bool.not_true, Bool.or_false]
                  rw [elementsAtPool, if_neg (by rw [hcond]; exact Bool.false_ne_true)]
                  simp only [QTree.children, QTree.elements]
                  exact hcnt
              | some cc =>
                  obtain ⟨c0, c1, c2, c3⟩ := cc
                  simp only [wfb, Bool.and_eq_true, decide_eq_true_eq, and_assoc] at hwf
                  obtain ⟨e0x, e0y, e0w, e0h, e1x, e1y, e1w, e1h, e2x, e2y, e2w, e2h,
                    e3x, e3y, e3w, e3h, hw0, hw1, hw2, hw3⟩ := hwf
                  simp only [storedOnceAt, Bool.and_eq_true, beq_iff_eq, and_assoc] at hst
                  obtain ⟨hcnt, hs0, hs1, hs2, hs3⟩ := hst
                  have hcnt1 : els.count e = 1 := by rw [hcnt, if_pos hinP]
                  have hne : els.isEmpty = false := by
                    cases els with
                    | nil => simp at hcnt1
                    | cons a as => rfl
                  have hcond : (((QTree.node x y w h me md d els
                      (some (c0, c1, c2, c3))).elements).isEmpty ||
                      !((QTree.node x y w h me md d els
                        (some (c0, c1, c2, c3))).IsPointInBounds px py)) = false := by
                    simp only [QTree.elements, hne, hin, Bool.not_true, Bool.or_false]
                  rw [elementsAtPool, if_neg (by rw [hcond]; exact Bool.false_ne_true)]
                  simp only [QTree.children]
                  have hmeas : ((c3 :: c2 :: c1 :: c0 :: post).map QTree.size).sum ≤ n := by
                    simp only [QTree.size, List.map_cons, List.sum_cons] at hn ⊢
                    omega
                  rcases quadrant_cases px py x y w h hinP with
                      ⟨hq, hq1, hq2, hq3⟩ | ⟨hq, hq0, hq2, hq3⟩ |
                      ⟨hq, hq0, hq1, hq3⟩ | ⟨hq, hq0, hq1, hq2⟩
                  · refine ih (c3 :: c2 :: c1 :: c0 :: post) hmeas [c3, c2, c1] c0 post
                      rfl ?_ hw0 hs0 ?_
                    · intro v hv
                      simp only [List.mem_cons, List.not_mem_nil, or_false] at hv
                      rcases hv with rfl | rfl | rfl
                      · rw [IsPointInBounds_eq, e3x, e3y, e3w, e3h]
                        exact hq3
                      · rw [IsPointInBounds_eq, e2x, e2y, e2w, e2h]
                        exact hq2
                      · rw [IsPointInBounds_eq, e1x, e1y, e1w, e1h]
                        exact hq1
                    · rw [IsPointInBounds_eq, e0x, e0y, e0w, e0h]
                      exact hq
                  · refine ih (c3 :: c2 :: c1 :: c0 :: post) hmeas [c3, c2] c1 (c0 :: post)
                      rfl ?_ hw1 hs1 ?_
                    · intro v hv
                      simp only [List.mem_cons, List.not_mem_nil, or_false] at hv
                      rcases hv with rfl | rfl
                      · rw [IsPointInBounds_eq, e3x, e3y, e3w, e3h]
                        exact hq3
                      · rw [IsPointInBounds_eq, e2x, e2y, e2w, e2h]
                        exact hq2
                    · rw [IsPointInBounds_eq, e1x, e1y, e1w, e1h]
                      exact hq
                  · refine ih (c3 :: c2 :: c1 :: c0 :: post) hmeas [c3] c2 (c1 :: c0 :: post)
                      rfl ?_ hw2 hs2 ?_
                    · intro v hv
                      simp only [List.mem_cons, List.not_mem_nil, or_false] at hv
                      rcases hv with rfl
                      rw [IsPointInBounds_eq, e3x, e3y, e3w, e3h]
                      exact hq3
                    · rw [IsPointInBounds_eq, e2x, e2y, e2w, e2h]
                      exact hq
                  · refine ih (c3 :: c2 :: c1 :: c0 :: post) hmeas [] c3 (c2 :: c1 :: c0 :: post)
                      rfl (by simp) hw3 hs3 ?_
                    rw [IsPointInBounds_eq, e3x, e3y, e3w, e3h]
                    exact hq


/-- C3: for a point element stored exactly once along its containment path
(the state one `AddElement` of it leaves behind) in a quadrant-shaped tree
whose root bounds contain the point, `GetElementsAt` at the point's
coordinates returns a sequence containing that element exactly once. -/
theorem getElementsAt_unique_C3 {t : QTree} {e : TreeElement} {px py : ℚ}
    (hg : e.geom = ElemGeom.point px py)
    (hwf : wfb t = true) (hst : storedOnceAt e px py t = true)
    (hin : t.IsPointInBounds px py = true) :
    (GetElementsAt t px py).count e = 1 :=
  elementsAtPool_count_aux e px py (([t].map QTree.size).sum) [t] le_rfl [] t [] rfl
    (by simp) hwf hst hin

/-- Witness for C3 on a concrete split tree holding the point once at the
root and once in its containing child leaf. -/
theorem getElementsAt_unique_C3_witness :
    (GetElementsAt (QTree.node 0 0 100 100 1 1 0
        [⟨1, ElemGeom.point 10 10⟩, ⟨2, ElemGeom.point 20 20⟩]
        (some (QTree.node 0 0 50 50 1 1 1
            [⟨1, ElemGeom.point 10 10⟩, ⟨2, ElemGeom.point 20 20⟩] none,
          QTree.node 50 0 50 50 1 1 1 [] none,
          QTree.node 0 50 50 50 1 1 1 [] none,
          QTree.node 50 50 50 50 1 1 1 [] none))) 10 10).count
      ⟨1, ElemGeom.point 10 10⟩ = 1 :=
  getElementsAt_unique_C3 rfl
    (by simp only [wfb]; with_unfolding_all decide)
    (by simp only [storedOnceAt]; with_unfolding_all decide)
    (by with_unfolding_all decide)

end QuadTree
